import Mathlib

/-! SliceReader: a sequential cursor over an in-memory slice.

Shallow embedding of `slicereader.go`.

* A Go slice `[]interface{}` is a `List α` over an arbitrary element type `α`.
* The field `i int64` is an `Int`.  The only arithmetic on it is `sr.i++`, executed
  under the guard `sr.i < sr.Size()`, and `sr.Size() - sr.i`; `len` of a Go slice is at
  most `2^63 - 1`, so for `0 ≤ i` neither can leave the `int64` range and no wrap-around
  is modelled.
* A method with a pointer receiver becomes a function that returns the Go result
  tuple together with the receiver after the call.
* Indexing `sr.s[sr.i]` outside `0 ≤ i < len(sr.s)` is a Go run-time panic; a call that
  panics returns `none`.
* A Go `error` result is an `Option Error` (`none` is the `nil` error); the `nil`
  element returned by `Read` at the end of the slice is `none : Option α`.
* A Go predicate is a total function `α → Bool`.  For the behaviour under a predicate
  that panics the four batch reads are embedded a second time (`ReadWhileP`, ...) with a
  predicate `α → Except ε Bool`; `ReadWhileP_total` and its siblings show that the two
  embeddings agree when the predicate never fails.
-/

namespace slicereader

/-- The errors of the package: `EOS` signals a graceful end of input. -/
inductive Error where
  | EOS
  deriving DecidableEq, Repr

/-- The Go type `predicate = func(v interface{}) bool`. -/
abbrev predicate (α : Type) := α → Bool

/-- The Go struct `SliceReader`: the slice `s` and the read offset `i`. -/
structure SliceReader (α : Type) where
  s : List α
  i : Int
  deriving DecidableEq

/-- The result of a call: `none` for a run-time panic, otherwise the Go result
tuple `ρ` and the receiver after the call. -/
abbrev Outcome (α : Type) (ρ : Type) := Option (ρ × SliceReader α)

/-- The Go index expression `s[i]` for an `int64` index: `none` (a panic) outside
`0 ≤ i < len(s)`. -/
def index {α : Type} (s : List α) (i : Int) : Option α :=
  if i < 0 then none else s[i.toNat]?

/-- `NewSliceReader` returns a new SliceReader. -/
def NewSliceReader {α : Type} (slice : List α) : SliceReader α :=
  { s := slice, i := 0 }

/-- `Size` returns the original length of the underlying slice. -/
def Size {α : Type} (sr : SliceReader α) : Int :=
  (sr.s.length : Int)

/-- `Len` returns the number of the unread elements of the slice. -/
def Len {α : Type} (sr : SliceReader α) : Int :=
  Size sr - sr.i

/-- `Read` reads a single element of the slice or the EOS error will be returned. -/
def Read {α : Type} (sr : SliceReader α) : Outcome α (Option α × Option Error) :=
  if sr.i ≥ Size sr then
    some ((none, some Error.EOS), sr)
  else
    match index sr.s sr.i with
    | none => none
    | some e => some ((some e, none), { sr with i := sr.i + 1 })

/-- The `for sr.i < sr.Size()` loop of `ReadWhile`; `s` is the slice built so far. -/
def ReadWhile.loop {α : Type} (p : predicate α) (sr : SliceReader α) (s : List α) :
    Outcome α (List α × Option Error) :=
  if sr.i < Size sr then
    match index sr.s sr.i with
    | none => none
    | some e =>
      if !p e then
        some ((s, none), sr)
      else
        ReadWhile.loop p { sr with i := sr.i + 1 } (s ++ [e])
  else
    some ((s, some Error.EOS), sr)
termination_by (Size sr - sr.i).toNat
decreasing_by
  simp only [Size] at *
  omega

/-- `ReadWhile` reads the slice till the element before the given predicate function
returns false.  If the end of the slice is reached the EOS error will be returned. -/
def ReadWhile {α : Type} (p : predicate α) (sr : SliceReader α) :
    Outcome α (List α × Option Error) :=
  ReadWhile.loop p sr []

/-- The `for sr.i < sr.Size()` loop of `ReadUntil`. -/
def ReadUntil.loop {α : Type} (p : predicate α) (sr : SliceReader α) (s : List α) :
    Outcome α (List α × Option Error) :=
  if sr.i < Size sr then
    match index sr.s sr.i with
    | none => none
    | some e =>
      if p e then
        some ((s, none), sr)
      else
        ReadUntil.loop p { sr with i := sr.i + 1 } (s ++ [e])
  else
    some ((s, some Error.EOS), sr)
termination_by (Size sr - sr.i).toNat
decreasing_by
  simp only [Size] at *
  omega

/-- `ReadUntil` reads the slice till the element before the given predicate function
returns true.  If the end of the slice is reached the EOS error will be returned. -/
def ReadUntil {α : Type} (p : predicate α) (sr : SliceReader α) :
    Outcome α (List α × Option Error) :=
  ReadUntil.loop p sr []

/-- The `for sr.i < sr.Size()` loop of `ReadWhileIncl`: on a stop the element is
appended and the function returns; `sr.i` is not incremented on that path. -/
def ReadWhileIncl.loop {α : Type} (p : predicate α) (sr : SliceReader α) (s : List α) :
    Outcome α (List α × Option Error) :=
  if sr.i < Size sr then
    match index sr.s sr.i with
    | none => none
    | some e =>
      if !p e then
        some ((s ++ [e], none), sr)
      else
        ReadWhileIncl.loop p { sr with i := sr.i + 1 } (s ++ [e])
  else
    some ((s, some Error.EOS), sr)
termination_by (Size sr - sr.i).toNat
decreasing_by
  simp only [Size] at *
  omega

/-- `ReadWhileIncl` reads the slice till including the element, the given predicate
function returns false.  If the end of the slice is reached the EOS error will be
returned. -/
def ReadWhileIncl {α : Type} (p : predicate α) (sr : SliceReader α) :
    Outcome α (List α × Option Error) :=
  ReadWhileIncl.loop p sr []

/-- The `for sr.i < sr.Size()` loop of `ReadUntilIncl`: on a stop the element is
appended and the function returns; `sr.i` is not incremented on that path. -/
def ReadUntilIncl.loop {α : Type} (p : predicate α) (sr : SliceReader α) (s : List α) :
    Outcome α (List α × Option Error) :=
  if sr.i < Size sr then
    match index sr.s sr.i with
    | none => none
    | some e =>
      if p e then
        some ((s ++ [e], none), sr)
      else
        ReadUntilIncl.loop p { sr with i := sr.i + 1 } (s ++ [e])
  else
    some ((s, some Error.EOS), sr)
termination_by (Size sr - sr.i).toNat
decreasing_by
  simp only [Size] at *
  omega

/-- `ReadUntilIncl` reads the slice till including the element, before the given
predicate function returns true.  If the end of the slice is reached the EOS error will
be returned. -/
def ReadUntilIncl {α : Type} (p : predicate α) (sr : SliceReader α) :
    Outcome α (List α × Option Error) :=
  ReadUntilIncl.loop p sr []

/-- The unread elements `elements[position..Size())` of a cursor. -/
def unread {α : Type} (sr : SliceReader α) : List α :=
  sr.s.drop sr.i.toNat

/-- The invariant of the data model: `0 ≤ position ≤ Size()`. -/
def Valid {α : Type} (sr : SliceReader α) : Prop :=
  0 ≤ sr.i ∧ sr.i ≤ Size sr

instance {α : Type} (sr : SliceReader α) : Decidable (Valid sr) :=
  inferInstanceAs (Decidable (0 ≤ sr.i ∧ sr.i ≤ Size sr))

/-- The value of the condition `c` on the element `j` places after the position:
`none` when there is no such element. -/
def condAt {α : Type} (c : α → Bool) (sr : SliceReader α) (j : Nat) : Option Bool :=
  (index sr.s (sr.i + (j : Int))).map c

/-- The stop condition `stop` first fires on the unread element `k` places after the
position: that element exists and `stop` is true on it, and the `k` elements before
it exist and `stop` is false on each. -/
def FirstStopAt {α : Type} (stop : α → Bool) (sr : SliceReader α) (k : Nat) : Prop :=
  condAt stop sr k = some true ∧ ∀ j : Nat, j < k → condAt stop sr j = some false

instance {α : Type} (stop : α → Bool) (sr : SliceReader α) (k : Nat) :
    Decidable (FirstStopAt stop sr k) :=
  inferInstanceAs
    (Decidable (condAt stop sr k = some true ∧ ∀ j : Nat, j < k → condAt stop sr j = some false))

/-- `Read` called `n` times in succession: the result tuples in call order and the
receiver after the last call. -/
def readN {α : Type} : Nat → SliceReader α → Outcome α (List (Option α × Option Error))
  | 0, sr => some ([], sr)
  | n + 1, sr =>
    match Read sr with
    | none => none
    | some (r, sr1) =>
      match readN n sr1 with
      | none => none
      | some (rs, sr2) => some (r :: rs, sr2)

/-- The values stored in the slices of `slicereader_test.go`: strings and booleans held
in `interface{}`. -/
inductive Value where
  | str (v : String)
  | bool (b : Bool)
  deriving DecidableEq, Repr

/-- The slice `testSlices[3]` of `slicereader_test.go`, "mixed four value slice". -/
def mixedFour : List Value :=
  [Value.str "value1", Value.str "value2", Value.bool false, Value.bool true]

/-- The test predicate `func(v interface{}) bool { return v != false }`. -/
def neFalse : predicate Value :=
  fun v => v != Value.bool false

/-- The test predicate `func(v interface{}) bool { return v == false }`. -/
def eqFalse : predicate Value :=
  fun v => v == Value.bool false

/-- A call of one of the seven methods of `SliceReader`. -/
inductive Call (α : Type) where
  | len
  | size
  | read
  | readWhile (p : predicate α)
  | readUntil (p : predicate α)
  | readWhileIncl (p : predicate α)
  | readUntilIncl (p : predicate α)

/-- The receiver after a call, `none` when the call panics.  `Len` and `Size` assign to
no field of the receiver. -/
def Call.receiverAfter {α : Type} : Call α → SliceReader α → Option (SliceReader α)
  | Call.len, sr => some sr
  | Call.size, sr => some sr
  | Call.read, sr => (Read sr).map Prod.snd
  | Call.readWhile p, sr => (ReadWhile p sr).map Prod.snd
  | Call.readUntil p, sr => (ReadUntil p sr).map Prod.snd
  | Call.readWhileIncl p, sr => (ReadWhileIncl p sr).map Prod.snd
  | Call.readUntilIncl p, sr => (ReadUntilIncl p sr).map Prod.snd

/-- The receivers after each call of a sequence of calls made one after the other on
the same cursor, `none` when one of the calls panics. -/
def runCalls {α : Type} : List (Call α) → SliceReader α → Option (List (SliceReader α))
  | [], _ => some []
  | c :: cs, sr =>
    match c.receiverAfter sr with
    | none => none
    | some sr1 =>
      match runCalls cs sr1 with
      | none => none
      | some srs => some (sr1 :: srs)

/-- What a Go panic carries: the run-time error of an index out of range, or the value
`e` a predicate panicked with. -/
inductive Panic (ε : Type) where
  | indexOutOfRange
  | predicate (e : ε)
  deriving DecidableEq, Repr

/-- How a call ends when panics are told apart: it returns the Go result tuple `ρ`, or
it panics; in both cases with the receiver as the call leaves it.  No method of the
package recovers from a panic, so a panic of the predicate unwinds through the read. -/
inductive Ended (ε α ρ : Type) where
  | returned (r : ρ) (sr : SliceReader α)
  | panicked (cause : Panic ε) (sr : SliceReader α)

/-- A predicate that may fail: `Except.error e` is a panic with the value `e`. -/
abbrev failingPredicate (ε α : Type) := α → Except ε Bool

/-- The loop of `ReadWhile` for a predicate that may fail. -/
def ReadWhileP.loop {ε α : Type} (p : failingPredicate ε α) (sr : SliceReader α)
    (s : List α) : Ended ε α (List α × Option Error) :=
  if sr.i < Size sr then
    match index sr.s sr.i with
    | none => Ended.panicked Panic.indexOutOfRange sr
    | some e =>
      match p e with
      | Except.error x => Ended.panicked (Panic.predicate x) sr
      | Except.ok b =>
        if !b then
          Ended.returned (s, none) sr
        else
          ReadWhileP.loop p { sr with i := sr.i + 1 } (s ++ [e])
  else
    Ended.returned (s, some Error.EOS) sr
termination_by (Size sr - sr.i).toNat
decreasing_by
  simp only [Size] at *
  omega

/-- `ReadWhile` for a predicate that may fail. -/
def ReadWhileP {ε α : Type} (p : failingPredicate ε α) (sr : SliceReader α) :
    Ended ε α (List α × Option Error) :=
  ReadWhileP.loop p sr []

/-- The loop of `ReadUntil` for a predicate that may fail. -/
def ReadUntilP.loop {ε α : Type} (p : failingPredicate ε α) (sr : SliceReader α)
    (s : List α) : Ended ε α (List α × Option Error) :=
  if sr.i < Size sr then
    match index sr.s sr.i with
    | none => Ended.panicked Panic.indexOutOfRange sr
    | some e =>
      match p e with
      | Except.error x => Ended.panicked (Panic.predicate x) sr
      | Except.ok b =>
        if b then
          Ended.returned (s, none) sr
        else
          ReadUntilP.loop p { sr with i := sr.i + 1 } (s ++ [e])
  else
    Ended.returned (s, some Error.EOS) sr
termination_by (Size sr - sr.i).toNat
decreasing_by
  simp only [Size] at *
  omega

/-- `ReadUntil` for a predicate that may fail. -/
def ReadUntilP {ε α : Type} (p : failingPredicate ε α) (sr : SliceReader α) :
    Ended ε α (List α × Option Error) :=
  ReadUntilP.loop p sr []

/-- The loop of `ReadWhileIncl` for a predicate that may fail. -/
def ReadWhileInclP.loop {ε α : Type} (p : failingPredicate ε α) (sr : SliceReader α)
    (s : List α) : Ended ε α (List α × Option Error) :=
  if sr.i < Size sr then
    match index sr.s sr.i with
    | none => Ended.panicked Panic.indexOutOfRange sr
    | some e =>
      match p e with
      | Except.error x => Ended.panicked (Panic.predicate x) sr
      | Except.ok b =>
        if !b then
          Ended.returned (s ++ [e], none) sr
        else
          ReadWhileInclP.loop p { sr with i := sr.i + 1 } (s ++ [e])
  else
    Ended.returned (s, some Error.EOS) sr
termination_by (Size sr - sr.i).toNat
decreasing_by
  simp only [Size] at *
  omega

/-- `ReadWhileIncl` for a predicate that may fail. -/
def ReadWhileInclP {ε α : Type} (p : failingPredicate ε α) (sr : SliceReader α) :
    Ended ε α (List α × Option Error) :=
  ReadWhileInclP.loop p sr []

/-- The loop of `ReadUntilIncl` for a predicate that may fail. -/
def ReadUntilInclP.loop {ε α : Type} (p : failingPredicate ε α) (sr : SliceReader α)
    (s : List α) : Ended ε α (List α × Option Error) :=
  if sr.i < Size sr then
    match index sr.s sr.i with
    | none => Ended.panicked Panic.indexOutOfRange sr
    | some e =>
      match p e with
      | Except.error x => Ended.panicked (Panic.predicate x) sr
      | Except.ok b =>
        if b then
          Ended.returned (s ++ [e], none) sr
        else
          ReadUntilInclP.loop p { sr with i := sr.i + 1 } (s ++ [e])
  else
    Ended.returned (s, some Error.EOS) sr
termination_by (Size sr - sr.i).toNat
decreasing_by
  simp only [Size] at *
  omega

/-- `ReadUntilIncl` for a predicate that may fail. -/
def ReadUntilInclP {ε α : Type} (p : failingPredicate ε α) (sr : SliceReader α) :
    Ended ε α (List α × Option Error) :=
  ReadUntilInclP.loop p sr []

/-- An outcome of the reads with a total predicate, as an `Ended`: the only panic
there is the index out of range, which leaves the receiver `sr` as it was. -/
def Ended.ofOutcome {ε α ρ : Type} (sr : SliceReader α) : Outcome α ρ → Ended ε α ρ
  | some (r, sr1) => Ended.returned r sr1
  | none => Ended.panicked Panic.indexOutOfRange sr

/-- The predicate `p` fails with `e` on the unread element `j` places after the
position, having returned `cont` (the value on which the scan goes on) on each of the
`j` unread elements before it. -/
def FailsAt {ε α : Type} (p : failingPredicate ε α) (cont : Bool) (sr : SliceReader α)
    (j : Nat) (e : ε) : Prop :=
  (index sr.s (sr.i + (j : Int))).map p = some (Except.error e) ∧
    ∀ m : Nat, m < j → (index sr.s (sr.i + (m : Int))).map p = some (Except.ok cont)

/-- A predicate in the manner of `func(v interface{}) bool { return v.(string) != "" }`:
it goes on (`cont`) over strings and fails on a value that is not a string. -/
def stringsOnly (cont : Bool) : failingPredicate String Value
  | Value.str _ => Except.ok cont
  | Value.bool _ => Except.error "interface conversion: interface is bool, not string"

/-- How the outcome `incl` of an inclusive read relates to the outcome `excl` of the
exclusive read from the same cursor: the same error and the same receiver after the
call; with a nil error the inclusive result is the exclusive result followed by the
single element at the position the calls leave; with `EOS` the two results are equal.
When one call panics so does the other. -/
def InclVsExcl {α : Type} (excl incl : Outcome α (List α × Option Error)) : Prop :=
  match excl, incl with
  | some ((r, err), sr1), some ((rI, errI), srI) =>
    errI = err ∧ srI = sr1 ∧
      (err = none → ∃ x, index sr1.s sr1.i = some x ∧ rI = r ++ [x]) ∧
      (err = some Error.EOS → rI = r)
  | none, none => True
  | _, _ => False

/-! ## Helper lemmas -/

theorem index_of_nonneg {α : Type} (s : List α) {i : Int} (h : 0 ≤ i) :
    index s i = s[i.toNat]? := by
  unfold index
  rw [if_neg (by omega)]

theorem index_of_neg {α : Type} (s : List α) {i : Int} (h : i < 0) :
    index s i = none := by
  unfold index
  rw [if_pos h]

theorem index_add_nat {α : Type} (sr : SliceReader α) (h : 0 ≤ sr.i) (j : Nat) :
    index sr.s (sr.i + j) = (unread sr)[j]? := by
  rw [index_of_nonneg _ (by omega), unread, List.getElem?_drop]
  congr 1
  omega

theorem unread_eq_nil {α : Type} (sr : SliceReader α) (h : Size sr ≤ sr.i) :
    unread sr = [] := by
  unfold unread
  apply List.drop_eq_nil_of_le
  unfold Size at h
  omega

theorem unread_eq_cons {α : Type} (sr : SliceReader α) (h0 : 0 ≤ sr.i)
    (h : sr.i < Size sr) :
    ∃ e, index sr.s sr.i = some e ∧ unread sr = e :: unread { sr with i := sr.i + 1 } := by
  unfold Size at h
  have hlt : sr.i.toNat < sr.s.length := by omega
  refine ⟨sr.s[sr.i.toNat], ?_, ?_⟩
  · rw [index_of_nonneg _ h0, List.getElem?_eq_getElem hlt]
  · unfold unread
    have : (sr.i + 1).toNat = sr.i.toNat + 1 := by omega
    simp only [this]
    exact List.drop_eq_getElem_cons hlt

theorem unread_length {α : Type} (sr : SliceReader α) (h : Valid sr) :
    ((unread sr).length : Int) = Len sr := by
  obtain ⟨h0, h1⟩ := h
  unfold unread Len
  unfold Size at *
  rw [List.length_drop]
  omega

/-- The loop of `ReadWhile` from a non-negative position: it appends the longest run
of unread elements satisfying `p`, advances the position by its length, and reports
`EOS` exactly when every unread element satisfies `p`. -/
theorem ReadWhile_loop_eq {α : Type} (p : predicate α) :
    ∀ (n : Nat) (sr : SliceReader α) (acc : List α), 0 ≤ sr.i →
      (Size sr - sr.i).toNat = n →
      ReadWhile.loop p sr acc =
        some ((acc ++ (unread sr).takeWhile p,
                if (unread sr).all p then some Error.EOS else none),
              { sr with i := sr.i + ((unread sr).takeWhile p).length }) := by
  intro n
  induction n with
  | zero =>
    intro sr acc h0 hn
    have hge : Size sr ≤ sr.i := by omega
    rw [ReadWhile.loop, if_neg (by omega), unread_eq_nil sr hge]
    simp
  | succ n ih =>
    intro sr acc h0 hn
    have hlt : sr.i < Size sr := by omega
    obtain ⟨e, he, hu⟩ := unread_eq_cons sr h0 hlt
    rw [ReadWhile.loop, if_pos hlt, he, hu]
    cases hp : p e with
    | false => simp [hp]
    | true =>
      have h1 : (Size { sr with i := sr.i + 1 } -
          ({ sr with i := sr.i + 1 } : SliceReader α).i).toNat = n := by
        simp only [Size] at *
        omega
      have := ih { sr with i := sr.i + 1 } (acc ++ [e]) (by simp; omega) h1
      simp only [hp, Bool.not_true, Bool.false_eq_true, if_false]
      rw [this]
      simp [hp, List.takeWhile_cons_of_pos]
      omega

/-- The loop of `ReadWhileIncl` from a non-negative position: as `ReadWhile`, but the
first element failing `p` (if any) is appended as well; the position still advances
only by the length of the run satisfying `p`. -/
theorem ReadWhileIncl_loop_eq {α : Type} (p : predicate α) :
    ∀ (n : Nat) (sr : SliceReader α) (acc : List α), 0 ≤ sr.i →
      (Size sr - sr.i).toNat = n →
      ReadWhileIncl.loop p sr acc =
        some ((acc ++ ((unread sr).takeWhile p ++ ((unread sr).dropWhile p).take 1),
                if (unread sr).all p then some Error.EOS else none),
              { sr with i := sr.i + ((unread sr).takeWhile p).length }) := by
  intro n
  induction n with
  | zero =>
    intro sr acc h0 hn
    have hge : Size sr ≤ sr.i := by omega
    rw [ReadWhileIncl.loop, if_neg (by omega), unread_eq_nil sr hge]
    simp
  | succ n ih =>
    intro sr acc h0 hn
    have hlt : sr.i < Size sr := by omega
    obtain ⟨e, he, hu⟩ := unread_eq_cons sr h0 hlt
    rw [ReadWhileIncl.loop, if_pos hlt, he, hu]
    cases hp : p e with
    | false => simp [hp]
    | true =>
      have h1 : (Size { sr with i := sr.i + 1 } -
          ({ sr with i := sr.i + 1 } : SliceReader α).i).toNat = n := by
        simp only [Size] at *
        omega
      have := ih { sr with i := sr.i + 1 } (acc ++ [e]) (by simp; omega) h1
      simp only [hp, Bool.not_true, Bool.false_eq_true, if_false]
      rw [this]
      simp [hp, List.takeWhile_cons_of_pos, List.dropWhile_cons_of_pos]
      omega

/-- The loop of `ReadUntil` is the loop of `ReadWhile` on the negated predicate. -/
theorem ReadUntil_loop_eq_while {α : Type} (p : predicate α) :
    ∀ (n : Nat) (sr : SliceReader α) (acc : List α), (Size sr - sr.i).toNat = n →
      ReadUntil.loop p sr acc = ReadWhile.loop (fun v => !p v) sr acc := by
  intro n
  induction n with
  | zero =>
    intro sr acc hn
    rw [ReadUntil.loop, ReadWhile.loop, if_neg (by omega), if_neg (by omega)]
  | succ n ih =>
    intro sr acc hn
    have hlt : sr.i < Size sr := by omega
    rw [ReadUntil.loop, ReadWhile.loop, if_pos hlt, if_pos hlt]
    cases he : index sr.s sr.i with
    | none => rfl
    | some e =>
      have h1 : (Size { sr with i := sr.i + 1 } -
          ({ sr with i := sr.i + 1 } : SliceReader α).i).toNat = n := by
        simp only [Size] at *
        omega
      simp only [Bool.not_not]
      rw [ih { sr with i := sr.i + 1 } (acc ++ [e]) h1]

/-- The loop of `ReadUntilIncl` is the loop of `ReadWhileIncl` on the negated
predicate. -/
theorem ReadUntilIncl_loop_eq_while {α : Type} (p : predicate α) :
    ∀ (n : Nat) (sr : SliceReader α) (acc : List α), (Size sr - sr.i).toNat = n →
      ReadUntilIncl.loop p sr acc = ReadWhileIncl.loop (fun v => !p v) sr acc := by
  intro n
  induction n with
  | zero =>
    intro sr acc hn
    rw [ReadUntilIncl.loop, ReadWhileIncl.loop, if_neg (by omega), if_neg (by omega)]
  | succ n ih =>
    intro sr acc hn
    have hlt : sr.i < Size sr := by omega
    rw [ReadUntilIncl.loop, ReadWhileIncl.loop, if_pos hlt, if_pos hlt]
    cases he : index sr.s sr.i with
    | none => rfl
    | some e =>
      have h1 : (Size { sr with i := sr.i + 1 } -
          ({ sr with i := sr.i + 1 } : SliceReader α).i).toNat = n := by
        simp only [Size] at *
        omega
      simp only [Bool.not_not]
      rw [ih { sr with i := sr.i + 1 } (acc ++ [e]) h1]

/-! ## Closed forms of the four batch reads -/

theorem ReadWhile_eq {α : Type} (p : predicate α) (sr : SliceReader α) (h0 : 0 ≤ sr.i) :
    ReadWhile p sr =
      some (((unread sr).takeWhile p, if (unread sr).all p then some Error.EOS else none),
            { sr with i := sr.i + ((unread sr).takeWhile p).length }) := by
  unfold ReadWhile
  rw [ReadWhile_loop_eq p _ sr [] h0 rfl]
  simp

theorem ReadWhileIncl_eq {α : Type} (p : predicate α) (sr : SliceReader α) (h0 : 0 ≤ sr.i) :
    ReadWhileIncl p sr =
      some (((unread sr).takeWhile p ++ ((unread sr).dropWhile p).take 1,
              if (unread sr).all p then some Error.EOS else none),
            { sr with i := sr.i + ((unread sr).takeWhile p).length }) := by
  unfold ReadWhileIncl
  rw [ReadWhileIncl_loop_eq p _ sr [] h0 rfl]
  simp

theorem ReadUntil_eq_ReadWhile {α : Type} (p : predicate α) (sr : SliceReader α) :
    ReadUntil p sr = ReadWhile (fun v => !p v) sr :=
  ReadUntil_loop_eq_while p _ sr [] rfl

theorem ReadUntilIncl_eq_ReadWhileIncl {α : Type} (p : predicate α) (sr : SliceReader α) :
    ReadUntilIncl p sr = ReadWhileIncl (fun v => !p v) sr :=
  ReadUntilIncl_loop_eq_while p _ sr [] rfl

/-! ## The first element on which the stop condition fires -/

theorem FirstStopAt.nonneg {α : Type} {stop : α → Bool} {sr : SliceReader α} {k : Nat}
    (h : FirstStopAt stop sr k) : 0 ≤ sr.i := by
  by_contra hneg
  have hlt : sr.i < 0 := by omega
  rcases Nat.eq_zero_or_pos k with hk | hk
  · subst hk
    have h1 := h.1
    simp [condAt, index_of_neg _ hlt] at h1
  · have h2 := h.2 0 hk
    simp [condAt, index_of_neg _ hlt] at h2

/-- For a list: if `stop` is true at index `k` and false at every index before, then
the longest initial run on which `c = !stop` holds is the first `k` elements. -/
theorem list_first_stop {α : Type} (stop c : α → Bool) (hc : ∀ v, c v = !stop v) :
    ∀ (k : Nat) (u : List α), (u[k]?).map stop = some true →
      (∀ j : Nat, j < k → (u[j]?).map stop = some false) →
      u.takeWhile c = u.take k ∧ u.dropWhile c = u.drop k ∧ u.all c = false ∧
        k < u.length ∧ ∀ y ∈ u.take k, stop y = false := by
  intro k
  induction k with
  | zero =>
    intro u hk _
    cases u with
    | nil => simp at hk
    | cons a t =>
      simp at hk
      simp [List.takeWhile_cons, List.dropWhile_cons, hc, hk]
  | succ k ih =>
    intro u hk hj
    cases u with
    | nil => simp at hk
    | cons a t =>
      have ha : stop a = false := by
        have := hj 0 (Nat.succ_pos k)
        simpa using this
      have hk1 : (t[k]?).map stop = some true := by simpa using hk
      have hj1 : ∀ j : Nat, j < k → (t[j]?).map stop = some false := by
        intro j hjk
        have := hj (j + 1) (Nat.succ_lt_succ hjk)
        simpa using this
      obtain ⟨h1, h2, h3, h4, h5⟩ := ih t hk1 hj1
      refine ⟨?_, ?_, ?_, ?_, ?_⟩
      · simp [List.takeWhile_cons, hc, ha, h1]
      · simp [List.dropWhile_cons, hc, ha, h2]
      · simp only [List.all_cons, h3, Bool.and_false]
      · simp only [List.length_cons]; omega
      · intro y hy
        simp only [List.take_succ_cons, List.mem_cons] at hy
        rcases hy with rfl | hy
        · exact ha
        · exact h5 y hy

/-- What `FirstStopAt` says about the unread elements. -/
theorem FirstStopAt.unread_split {α : Type} {stop : α → Bool} {sr : SliceReader α} {k : Nat}
    (h : FirstStopAt stop sr k) (c : α → Bool) (hc : ∀ v, c v = !stop v) :
    0 ≤ sr.i ∧ (unread sr).takeWhile c = (unread sr).take k ∧
      (unread sr).dropWhile c = (unread sr).drop k ∧ (unread sr).all c = false ∧
      k < (unread sr).length ∧ (∀ y ∈ (unread sr).take k, stop y = false) ∧
      ∃ x, index sr.s (sr.i + k) = some x ∧ (unread sr)[k]? = some x ∧ stop x = true := by
  have h0 := h.nonneg
  have hk : ((unread sr)[k]?).map stop = some true := by
    rw [← index_add_nat sr h0 k]; exact h.1
  have hj : ∀ j : Nat, j < k → ((unread sr)[j]?).map stop = some false := by
    intro j hjk
    rw [← index_add_nat sr h0 j]; exact h.2 j hjk
  obtain ⟨h1, h2, h3, h4, h5⟩ := list_first_stop stop c hc k (unread sr) hk hj
  refine ⟨h0, h1, h2, h3, h4, h5, ?_⟩
  cases hx : (unread sr)[k]? with
  | none => simp [hx] at hk
  | some x =>
    refine ⟨x, ?_, rfl, ?_⟩
    · rw [index_add_nat sr h0 k, hx]
    · simpa [hx] using hk

/-! ## Complete outcome of a batch read that stops on an element -/

theorem ReadWhile_of_stop {α : Type} (p : predicate α) (sr : SliceReader α) (k : Nat)
    (h : FirstStopAt (fun v => !p v) sr k) :
    ReadWhile p sr = some (((unread sr).take k, none), { sr with i := sr.i + k }) := by
  obtain ⟨h0, h1, _, h3, h4, _, _⟩ := h.unread_split p (by simp)
  rw [ReadWhile_eq p sr h0, h1, h3]
  have hlen : ((unread sr).take k).length = k := by
    rw [List.length_take]; omega
  simp [hlen]

theorem ReadWhileIncl_of_stop {α : Type} (p : predicate α) (sr : SliceReader α) (k : Nat)
    (h : FirstStopAt (fun v => !p v) sr k) :
    ReadWhileIncl p sr =
      some (((unread sr).take (k + 1), none), { sr with i := sr.i + k }) := by
  obtain ⟨h0, h1, h2, h3, h4, _, _⟩ := h.unread_split p (by simp)
  rw [ReadWhileIncl_eq p sr h0, h1, h2, h3, ← List.take_add]
  have hlen : ((unread sr).take k).length = k := by
    rw [List.length_take]; omega
  simp [hlen]

theorem ReadUntil_of_stop {α : Type} (p : predicate α) (sr : SliceReader α) (k : Nat)
    (h : FirstStopAt p sr k) :
    ReadUntil p sr = some (((unread sr).take k, none), { sr with i := sr.i + k }) := by
  rw [ReadUntil_eq_ReadWhile]
  apply ReadWhile_of_stop
  simpa using h

theorem ReadUntilIncl_of_stop {α : Type} (p : predicate α) (sr : SliceReader α) (k : Nat)
    (h : FirstStopAt p sr k) :
    ReadUntilIncl p sr =
      some (((unread sr).take (k + 1), none), { sr with i := sr.i + k }) := by
  rw [ReadUntilIncl_eq_ReadWhileIncl]
  apply ReadWhileIncl_of_stop
  simpa using h

/-- The first `k + 1` unread elements end with the element `k` places after the
position, and they are all the unread elements when that element is the last of the
slice. -/
theorem take_succ_unread {α : Type} (sr : SliceReader α) (k : Nat) (x : α)
    (h0 : 0 ≤ sr.i) (hx : (unread sr)[k]? = some x) :
    ((unread sr).take (k + 1)).length = k + 1 ∧
      ((unread sr).take (k + 1)).getLast? = some x ∧
      (sr.i + (k : Int) + 1 = Size sr → (unread sr).take (k + 1) = unread sr) := by
  have hlt : k < (unread sr).length := by
    rcases Nat.lt_or_ge k (unread sr).length with hl | hl
    · exact hl
    · rw [List.getElem?_eq_none hl] at hx
      exact absurd hx (by simp)
  refine ⟨?_, ?_, ?_⟩
  · rw [List.length_take]; omega
  · rw [List.take_succ, hx]
    simp
  · intro hlast
    apply List.take_of_length_le
    have : (unread sr).length = sr.s.length - sr.i.toNat := by
      unfold unread; rw [List.length_drop]
    unfold Size at hlast
    omega

/-! ## Batch reads on which the stop condition never fires -/

theorem ReadWhile_of_all {α : Type} (p : predicate α) (sr : SliceReader α) (hv : Valid sr)
    (hp : ∀ x ∈ unread sr, p x = true) :
    ReadWhile p sr = some ((unread sr, some Error.EOS), { sr with i := Size sr }) := by
  have htw : (unread sr).takeWhile p = unread sr := List.takeWhile_eq_self_iff.mpr hp
  have hall : (unread sr).all p = true := List.all_eq_true.mpr hp
  have hlen := unread_length sr hv
  rw [ReadWhile_eq p sr hv.1, htw, hall, hlen]
  simp [Len]

theorem ReadWhileIncl_of_all {α : Type} (p : predicate α) (sr : SliceReader α)
    (hv : Valid sr) (hp : ∀ x ∈ unread sr, p x = true) :
    ReadWhileIncl p sr = some ((unread sr, some Error.EOS), { sr with i := Size sr }) := by
  have htw : (unread sr).takeWhile p = unread sr := List.takeWhile_eq_self_iff.mpr hp
  have hdw : (unread sr).dropWhile p = [] := List.dropWhile_eq_nil_iff.mpr hp
  have hall : (unread sr).all p = true := List.all_eq_true.mpr hp
  have hlen := unread_length sr hv
  rw [ReadWhileIncl_eq p sr hv.1, htw, hdw, hall, hlen]
  simp [Len]

theorem ReadUntil_of_none {α : Type} (p : predicate α) (sr : SliceReader α) (hv : Valid sr)
    (hp : ∀ x ∈ unread sr, p x = false) :
    ReadUntil p sr = some ((unread sr, some Error.EOS), { sr with i := Size sr }) := by
  rw [ReadUntil_eq_ReadWhile]
  apply ReadWhile_of_all _ sr hv
  intro x hx
  simp [hp x hx]

theorem ReadUntilIncl_of_none {α : Type} (p : predicate α) (sr : SliceReader α)
    (hv : Valid sr) (hp : ∀ x ∈ unread sr, p x = false) :
    ReadUntilIncl p sr = some ((unread sr, some Error.EOS), { sr with i := Size sr }) := by
  rw [ReadUntilIncl_eq_ReadWhileIncl]
  apply ReadWhileIncl_of_all _ sr hv
  intro x hx
  simp [hp x hx]

/-! ## Successive single reads -/

theorem Read_of_lt {α : Type} (sr : SliceReader α) (h0 : 0 ≤ sr.i) (hlt : sr.i < Size sr) :
    ∃ e, index sr.s sr.i = some e ∧ unread sr = e :: unread { sr with i := sr.i + 1 } ∧
      Read sr = some ((some e, none), { sr with i := sr.i + 1 }) := by
  obtain ⟨e, he, hu⟩ := unread_eq_cons sr h0 hlt
  refine ⟨e, he, hu, ?_⟩
  unfold Read
  rw [if_neg (by omega), he]

theorem Read_of_ge {α : Type} (sr : SliceReader α) (hge : Size sr ≤ sr.i) :
    Read sr = some ((none, some Error.EOS), sr) := by
  unfold Read
  rw [if_pos hge]

theorem readN_exhausted {α : Type} (sr : SliceReader α) (hge : Size sr ≤ sr.i) :
    ∀ m : Nat, readN m sr = some (List.replicate m (none, some Error.EOS), sr) := by
  intro m
  induction m with
  | zero => rfl
  | succ m ih =>
    rw [readN, Read_of_ge sr hge]
    simp only [ih, List.replicate_succ]

theorem readN_unread {α : Type} :
    ∀ (n : Nat) (sr : SliceReader α), Valid sr → (unread sr).length = n →
      readN n sr =
        some ((unread sr).map (fun x => (some x, none)), { sr with i := Size sr }) := by
  intro n
  induction n with
  | zero =>
    intro sr hv hn
    have hlen := unread_length sr hv
    have hnil : unread sr = [] := List.length_eq_zero.mp hn
    rw [hn] at hlen
    have hi : sr.i = Size sr := by
      unfold Len at hlen
      simp at hlen
      omega
    rw [readN, hnil, ← hi]
    rfl
  | succ n ih =>
    intro sr hv hn
    have hlen := unread_length sr hv
    rw [hn] at hlen
    have hlt : sr.i < Size sr := by
      unfold Len at hlen
      push_cast at hlen
      omega
    obtain ⟨e, _, hu, hr⟩ := Read_of_lt sr hv.1 hlt
    have hv1 : Valid { sr with i := sr.i + 1 } := by
      refine ⟨?_, ?_⟩
      · show 0 ≤ sr.i + 1
        have := hv.1
        omega
      · show sr.i + 1 ≤ Size sr
        omega
    have hn1 : (unread { sr with i := sr.i + 1 }).length = n := by
      rw [hu] at hn
      simpa using hn
    rw [readN, hr]
    simp only [ih _ hv1 hn1, hu, List.map_cons]
    rfl

/-! ## Reading the element a batch read stopped on -/

theorem index_some_bounds {α : Type} (s : List α) (j : Int) (x : α)
    (h : index s j = some x) : 0 ≤ j ∧ j < (s.length : Int) := by
  rcases Int.lt_or_le j 0 with hneg | hnn
  · rw [index_of_neg s hneg] at h
    exact absurd h (by simp)
  · refine ⟨hnn, ?_⟩
    rw [index_of_nonneg s hnn] at h
    rcases Nat.lt_or_ge j.toNat s.length with hl | hl
    · omega
    · rw [List.getElem?_eq_none hl] at h
      exact absurd h (by simp)

theorem Read_at_offset {α : Type} (sr : SliceReader α) (k : Nat) (x : α)
    (hx : index sr.s (sr.i + (k : Int)) = some x) :
    Read { sr with i := sr.i + (k : Int) } =
      some ((some x, none), { sr with i := sr.i + (k : Int) + 1 }) := by
  obtain ⟨_, h2⟩ := index_some_bounds _ _ _ hx
  unfold Read
  have hlt : ¬ (sr.i + (k : Int) ≥ Size { sr with i := sr.i + (k : Int) }) := by
    show ¬ (sr.i + (k : Int) ≥ (sr.s.length : Int))
    omega
  rw [if_neg hlt]
  show (match index sr.s (sr.i + (k : Int)) with
    | none => none
    | some e => some ((some e, none), { sr with i := sr.i + (k : Int) + 1 })) = _
  rw [hx]

/-! ## Number of unread elements after a batch read -/

/-- The exclusive reads move the position by one per returned element. -/
theorem Len_after_ReadWhile {α : Type} (p : predicate α) (sr : SliceReader α)
    (h0 : 0 ≤ sr.i) :
    ∃ r err sr1, ReadWhile p sr = some ((r, err), sr1) ∧
      Len sr1 = Len sr - (r.length : Int) := by
  refine ⟨_, _, _, ReadWhile_eq p sr h0, ?_⟩
  simp only [Len, Size]
  omega

/-- The inclusive reads move the position by one per returned element when they end
with `EOS`, and by one less than the number of returned elements when they stop on an
element. -/
theorem Len_after_ReadWhileIncl {α : Type} (p : predicate α) (sr : SliceReader α)
    (h0 : 0 ≤ sr.i) :
    ∃ r err sr1, ReadWhileIncl p sr = some ((r, err), sr1) ∧
      (err = some Error.EOS → Len sr1 = Len sr - (r.length : Int)) ∧
      (err = none → Len sr1 = Len sr - (r.length : Int) + 1) := by
  refine ⟨_, _, _, ReadWhileIncl_eq p sr h0, ?_, ?_⟩
  · intro herr
    have hall : (unread sr).all p = true := by
      by_contra hc
      simp only [hc] at herr
      exact absurd herr (by simp)
    have hdw : (unread sr).dropWhile p = [] :=
      List.dropWhile_eq_nil_iff.mpr (List.all_eq_true.mp hall)
    simp only [Len, Size, hdw, List.take_nil, List.append_nil]
    omega
  · intro herr
    have hall : ¬ (unread sr).all p = true := by
      intro hc
      simp only [hc, if_true] at herr
      exact absurd herr (by simp)
    have hdw : (unread sr).dropWhile p ≠ [] := by
      intro hc
      exact hall (List.all_eq_true.mpr (List.dropWhile_eq_nil_iff.mp hc))
    have h1 : (((unread sr).dropWhile p).take 1).length = 1 := by
      cases hd : (unread sr).dropWhile p with
      | nil => exact absurd hd hdw
      | cons a t => simp
    simp only [Len, Size, List.length_append, h1]
    push_cast
    omega

/-! ## Reads from a negative position, and the unread elements after an advance -/

theorem Read_of_neg {α : Type} (sr : SliceReader α) (h : sr.i < 0) : Read sr = none := by
  unfold Read
  have hs : ¬ (sr.i ≥ Size sr) := by
    unfold Size
    omega
  rw [if_neg hs, index_of_neg _ h]

theorem ReadWhile_of_neg {α : Type} (p : predicate α) (sr : SliceReader α) (h : sr.i < 0) :
    ReadWhile p sr = none := by
  have hs : sr.i < Size sr := by
    unfold Size
    omega
  rw [ReadWhile, ReadWhile.loop, if_pos hs, index_of_neg _ h]

theorem ReadWhileIncl_of_neg {α : Type} (p : predicate α) (sr : SliceReader α)
    (h : sr.i < 0) : ReadWhileIncl p sr = none := by
  have hs : sr.i < Size sr := by
    unfold Size
    omega
  rw [ReadWhileIncl, ReadWhileIncl.loop, if_pos hs, index_of_neg _ h]

theorem unread_advance {α : Type} (sr : SliceReader α) (h0 : 0 ≤ sr.i) (n : Nat) :
    unread { sr with i := sr.i + (n : Int) } = (unread sr).drop n := by
  unfold unread
  rw [List.drop_drop]
  congr 1
  show (sr.i + (n : Int)).toNat = sr.i.toNat + n
  omega

theorem takeWhile_append_drop_length {α : Type} (p : α → Bool) (u : List α) :
    u.takeWhile p ++ u.drop (u.takeWhile p).length = u := by
  induction u with
  | nil => rfl
  | cons a t ih =>
    cases hp : p a with
    | false => simp [List.takeWhile_cons, hp]
    | true => simp [List.takeWhile_cons, hp, ih]

theorem length_takeWhile_le_length {α : Type} (p : α → Bool) (u : List α) :
    (u.takeWhile p).length ≤ u.length :=
  (List.takeWhile_sublist p).length_le

/-- The receiver after a read from a non-negative position: the same slice, and the
position advanced by the length of the longest run of unread elements on which the
scan goes on.  `Read` advances by one below `Size()` and not at all from there on. -/
theorem receiver_after_ReadWhile {α : Type} (p : predicate α) (sr : SliceReader α)
    (h0 : 0 ≤ sr.i) :
    (ReadWhile p sr).map Prod.snd =
        some { sr with i := sr.i + ((unread sr).takeWhile p).length } ∧
      (ReadWhileIncl p sr).map Prod.snd =
        some { sr with i := sr.i + ((unread sr).takeWhile p).length } := by
  rw [ReadWhile_eq p sr h0, ReadWhileIncl_eq p sr h0]
  exact ⟨rfl, rfl⟩

theorem receiver_after_Read {α : Type} (sr : SliceReader α) (h0 : 0 ≤ sr.i) :
    (Read sr).map Prod.snd =
      some { sr with i := if sr.i < Size sr then sr.i + 1 else sr.i } := by
  rcases Int.lt_or_le sr.i (Size sr) with hlt | hge
  · obtain ⟨e, _, _, hr⟩ := Read_of_lt sr h0 hlt
    rw [hr, if_pos hlt]
    rfl
  · rw [Read_of_ge sr hge, if_neg (by omega)]
    rfl

/-! ## The invariant along calls -/

/-- Every call on a cursor with `0 ≤ position ≤ Size()` returns, and the receiver after
it holds the same slice, satisfies the invariant and has a position at least as large. -/
theorem receiverAfter_valid {α : Type} (c : Call α) (sr : SliceReader α) (hv : Valid sr) :
    ∃ sr1, c.receiverAfter sr = some sr1 ∧ sr1.s = sr.s ∧ Valid sr1 ∧ sr.i ≤ sr1.i := by
  have hlen := unread_length sr hv
  obtain ⟨h0, h1⟩ := hv
  have hbatch : ∀ q : predicate α,
      ∃ sr1, ((ReadWhile q sr).map Prod.snd = some sr1 ∧
          (ReadWhileIncl q sr).map Prod.snd = some sr1) ∧
        sr1.s = sr.s ∧ Valid sr1 ∧ sr.i ≤ sr1.i := by
    intro q
    refine ⟨_, receiver_after_ReadWhile q sr h0, rfl, ⟨?_, ?_⟩, ?_⟩
    · show 0 ≤ sr.i + (((unread sr).takeWhile q).length : Int)
      omega
    · show sr.i + (((unread sr).takeWhile q).length : Int) ≤ (sr.s.length : Int)
      have := length_takeWhile_le_length q (unread sr)
      unfold Len Size at hlen
      omega
    · show sr.i ≤ sr.i + (((unread sr).takeWhile q).length : Int)
      omega
  cases c with
  | len => exact ⟨sr, rfl, rfl, ⟨h0, h1⟩, Int.le_refl _⟩
  | size => exact ⟨sr, rfl, rfl, ⟨h0, h1⟩, Int.le_refl _⟩
  | read =>
    refine ⟨_, receiver_after_Read sr h0, rfl, ⟨?_, ?_⟩, ?_⟩
    · show 0 ≤ (if sr.i < Size sr then sr.i + 1 else sr.i)
      split <;> omega
    · show (if sr.i < Size sr then sr.i + 1 else sr.i) ≤ (sr.s.length : Int)
      unfold Size at *
      split <;> omega
    · show sr.i ≤ (if sr.i < Size sr then sr.i + 1 else sr.i)
      split <;> omega
  | readWhile p =>
    obtain ⟨sr1, ⟨hw, _⟩, hs, hv1, hle⟩ := hbatch p
    exact ⟨sr1, hw, hs, hv1, hle⟩
  | readWhileIncl p =>
    obtain ⟨sr1, ⟨_, hw⟩, hs, hv1, hle⟩ := hbatch p
    exact ⟨sr1, hw, hs, hv1, hle⟩
  | readUntil p =>
    obtain ⟨sr1, ⟨hw, _⟩, hs, hv1, hle⟩ := hbatch (fun v => !p v)
    refine ⟨sr1, ?_, hs, hv1, hle⟩
    show (ReadUntil p sr).map Prod.snd = some sr1
    rw [ReadUntil_eq_ReadWhile]
    exact hw
  | readUntilIncl p =>
    obtain ⟨sr1, ⟨_, hw⟩, hs, hv1, hle⟩ := hbatch (fun v => !p v)
    refine ⟨sr1, ?_, hs, hv1, hle⟩
    show (ReadUntilIncl p sr).map Prod.snd = some sr1
    rw [ReadUntilIncl_eq_ReadWhileIncl]
    exact hw

theorem runCalls_valid {α : Type} (calls : List (Call α)) :
    ∀ sr : SliceReader α, Valid sr →
      ∃ srs, runCalls calls sr = some srs ∧ (∀ x ∈ srs, Valid x ∧ x.s = sr.s) ∧
        List.Chain (fun a b => a.i ≤ b.i) sr srs := by
  induction calls with
  | nil =>
    intro sr _
    exact ⟨[], rfl, by simp, List.Chain.nil⟩
  | cons c cs ih =>
    intro sr hv
    obtain ⟨sr1, hc, hs, hv1, hle⟩ := receiverAfter_valid c sr hv
    obtain ⟨srs, hrun, hall, hchain⟩ := ih sr1 hv1
    refine ⟨sr1 :: srs, ?_, ?_, List.Chain.cons hle hchain⟩
    · rw [runCalls, hc]
      simp only [hrun]
    · intro x hx
      rcases List.mem_cons.mp hx with rfl | hx
      · exact ⟨hv1, hs⟩
      · obtain ⟨hvx, hsx⟩ := hall x hx
        exact ⟨hvx, hsx.trans hs⟩

/-! ## A predicate that fails -/

theorem ReadWhileP_loop_fails {ε α : Type} (p : failingPredicate ε α) (e : ε) :
    ∀ (j : Nat) (sr : SliceReader α) (acc : List α), FailsAt p true sr j e →
      ReadWhileP.loop p sr acc =
        Ended.panicked (Panic.predicate e) { sr with i := sr.i + (j : Int) } := by
  intro j
  induction j with
  | zero =>
    intro sr acc h
    obtain ⟨x, hx, hpx⟩ := Option.map_eq_some'.mp h.1
    simp only [Nat.cast_zero, Int.add_zero] at hx
    obtain ⟨_, hlt⟩ := index_some_bounds _ _ _ hx
    rw [ReadWhileP.loop, if_pos (by unfold Size; omega), hx]
    simp only [hpx, Nat.cast_zero, Int.add_zero]
  | succ j ih =>
    intro sr acc h
    obtain ⟨y, hy, hpy⟩ := Option.map_eq_some'.mp (h.2 0 (Nat.succ_pos j))
    simp only [Nat.cast_zero, Int.add_zero] at hy
    obtain ⟨_, hlt⟩ := index_some_bounds _ _ _ hy
    have hnext : FailsAt p true { sr with i := sr.i + 1 } j e := by
      refine ⟨?_, ?_⟩
      · have h1 := h.1
        have he : sr.i + ((j + 1 : Nat) : Int) = sr.i + 1 + (j : Int) := by
          push_cast
          omega
        rw [he] at h1
        exact h1
      · intro m hm
        have h2 := h.2 (m + 1) (Nat.succ_lt_succ hm)
        have he : sr.i + ((m + 1 : Nat) : Int) = sr.i + 1 + (m : Int) := by
          push_cast
          omega
        rw [he] at h2
        exact h2
    rw [ReadWhileP.loop, if_pos (by unfold Size; omega), hy]
    simp only [hpy]
    have hrec := ih { sr with i := sr.i + 1 } (acc ++ [y]) hnext
    simp only [Bool.not_true, Bool.false_eq_true, if_false] at hrec ⊢
    rw [hrec]
    have he : sr.i + 1 + (j : Int) = sr.i + ((j + 1 : Nat) : Int) := by
      push_cast
      omega
    simp only [he]

theorem ReadWhileInclP_loop_fails {ε α : Type} (p : failingPredicate ε α) (e : ε) :
    ∀ (j : Nat) (sr : SliceReader α) (acc : List α), FailsAt p true sr j e →
      ReadWhileInclP.loop p sr acc =
        Ended.panicked (Panic.predicate e) { sr with i := sr.i + (j : Int) } := by
  intro j
  induction j with
  | zero =>
    intro sr acc h
    obtain ⟨x, hx, hpx⟩ := Option.map_eq_some'.mp h.1
    simp only [Nat.cast_zero, Int.add_zero] at hx
    obtain ⟨_, hlt⟩ := index_some_bounds _ _ _ hx
    rw [ReadWhileInclP.loop, if_pos (by unfold Size; omega), hx]
    simp only [hpx, Nat.cast_zero, Int.add_zero]
  | succ j ih =>
    intro sr acc h
    obtain ⟨y, hy, hpy⟩ := Option.map_eq_some'.mp (h.2 0 (Nat.succ_pos j))
    simp only [Nat.cast_zero, Int.add_zero] at hy
    obtain ⟨_, hlt⟩ := index_some_bounds _ _ _ hy
    have hnext : FailsAt p true { sr with i := sr.i + 1 } j e := by
      refine ⟨?_, ?_⟩
      · have h1 := h.1
        have he : sr.i + ((j + 1 : Nat) : Int) = sr.i + 1 + (j : Int) := by
          push_cast
          omega
        rw [he] at h1
        exact h1
      · intro m hm
        have h2 := h.2 (m + 1) (Nat.succ_lt_succ hm)
        have he : sr.i + ((m + 1 : Nat) : Int) = sr.i + 1 + (m : Int) := by
          push_cast
          omega
        rw [he] at h2
        exact h2
    rw [ReadWhileInclP.loop, if_pos (by unfold Size; omega), hy]
    simp only [hpy]
    have hrec := ih { sr with i := sr.i + 1 } (acc ++ [y]) hnext
    simp only [Bool.not_true, Bool.false_eq_true, if_false] at hrec ⊢
    rw [hrec]
    have he : sr.i + 1 + (j : Int) = sr.i + ((j + 1 : Nat) : Int) := by
      push_cast
      omega
    simp only [he]

theorem ReadUntilP_loop_fails {ε α : Type} (p : failingPredicate ε α) (e : ε) :
    ∀ (j : Nat) (sr : SliceReader α) (acc : List α), FailsAt p false sr j e →
      ReadUntilP.loop p sr acc =
        Ended.panicked (Panic.predicate e) { sr with i := sr.i + (j : Int) } := by
  intro j
  induction j with
  | zero =>
    intro sr acc h
    obtain ⟨x, hx, hpx⟩ := Option.map_eq_some'.mp h.1
    simp only [Nat.cast_zero, Int.add_zero] at hx
    obtain ⟨_, hlt⟩ := index_some_bounds _ _ _ hx
    rw [ReadUntilP.loop, if_pos (by unfold Size; omega), hx]
    simp only [hpx, Nat.cast_zero, Int.add_zero]
  | succ j ih =>
    intro sr acc h
    obtain ⟨y, hy, hpy⟩ := Option.map_eq_some'.mp (h.2 0 (Nat.succ_pos j))
    simp only [Nat.cast_zero, Int.add_zero] at hy
    obtain ⟨_, hlt⟩ := index_some_bounds _ _ _ hy
    have hnext : FailsAt p false { sr with i := sr.i + 1 } j e := by
      refine ⟨?_, ?_⟩
      · have h1 := h.1
        have he : sr.i + ((j + 1 : Nat) : Int) = sr.i + 1 + (j : Int) := by
          push_cast
          omega
        rw [he] at h1
        exact h1
      · intro m hm
        have h2 := h.2 (m + 1) (Nat.succ_lt_succ hm)
        have he : sr.i + ((m + 1 : Nat) : Int) = sr.i + 1 + (m : Int) := by
          push_cast
          omega
        rw [he] at h2
        exact h2
    rw [ReadUntilP.loop, if_pos (by unfold Size; omega), hy]
    simp only [hpy]
    have hrec := ih { sr with i := sr.i + 1 } (acc ++ [y]) hnext
    simp only [Bool.not_true, Bool.false_eq_true, if_false] at hrec ⊢
    rw [hrec]
    have he : sr.i + 1 + (j : Int) = sr.i + ((j + 1 : Nat) : Int) := by
      push_cast
      omega
    simp only [he]

theorem ReadUntilInclP_loop_fails {ε α : Type} (p : failingPredicate ε α) (e : ε) :
    ∀ (j : Nat) (sr : SliceReader α) (acc : List α), FailsAt p false sr j e →
      ReadUntilInclP.loop p sr acc =
        Ended.panicked (Panic.predicate e) { sr with i := sr.i + (j : Int) } := by
  intro j
  induction j with
  | zero =>
    intro sr acc h
    obtain ⟨x, hx, hpx⟩ := Option.map_eq_some'.mp h.1
    simp only [Nat.cast_zero, Int.add_zero] at hx
    obtain ⟨_, hlt⟩ := index_some_bounds _ _ _ hx
    rw [ReadUntilInclP.loop, if_pos (by unfold Size; omega), hx]
    simp only [hpx, Nat.cast_zero, Int.add_zero]
  | succ j ih =>
    intro sr acc h
    obtain ⟨y, hy, hpy⟩ := Option.map_eq_some'.mp (h.2 0 (Nat.succ_pos j))
    simp only [Nat.cast_zero, Int.add_zero] at hy
    obtain ⟨_, hlt⟩ := index_some_bounds _ _ _ hy
    have hnext : FailsAt p false { sr with i := sr.i + 1 } j e := by
      refine ⟨?_, ?_⟩
      · have h1 := h.1
        have he : sr.i + ((j + 1 : Nat) : Int) = sr.i + 1 + (j : Int) := by
          push_cast
          omega
        rw [he] at h1
        exact h1
      · intro m hm
        have h2 := h.2 (m + 1) (Nat.succ_lt_succ hm)
        have he : sr.i + ((m + 1 : Nat) : Int) = sr.i + 1 + (m : Int) := by
          push_cast
          omega
        rw [he] at h2
        exact h2
    rw [ReadUntilInclP.loop, if_pos (by unfold Size; omega), hy]
    simp only [hpy]
    have hrec := ih { sr with i := sr.i + 1 } (acc ++ [y]) hnext
    simp only [Bool.not_true, Bool.false_eq_true, if_false] at hrec ⊢
    rw [hrec]
    have he : sr.i + 1 + (j : Int) = sr.i + ((j + 1 : Nat) : Int) := by
      push_cast
      omega
    simp only [he]

/-! ## With a predicate that never fails the two embeddings of a read agree -/

theorem ReadWhileP_loop_total {ε α : Type} (p : predicate α) :
    ∀ (n : Nat) (sr : SliceReader α) (acc : List α), (Size sr - sr.i).toNat = n →
      ReadWhileP.loop (fun v => (Except.ok (p v) : Except ε Bool)) sr acc =
        Ended.ofOutcome sr (ReadWhile.loop p sr acc) := by
  intro n
  induction n with
  | zero =>
    intro sr acc hn
    rw [ReadWhileP.loop, ReadWhile.loop, if_neg (by omega), if_neg (by omega)]
    rfl
  | succ n ih =>
    intro sr acc hn
    have hlt : sr.i < Size sr := by omega
    rw [ReadWhileP.loop, ReadWhile.loop, if_pos hlt, if_pos hlt]
    cases he : index sr.s sr.i with
    | none => rfl
    | some e =>
      obtain ⟨h0, _⟩ := index_some_bounds _ _ _ he
      have h1 : (Size { sr with i := sr.i + 1 } -
          ({ sr with i := sr.i + 1 } : SliceReader α).i).toNat = n := by
        simp only [Size] at *
        omega
      have h01 : 0 ≤ ({ sr with i := sr.i + 1 } : SliceReader α).i := by
        show 0 ≤ sr.i + 1
        omega
      have hsome := ih { sr with i := sr.i + 1 } (acc ++ [e]) h1
      rw [ReadWhile_loop_eq p _ _ (acc ++ [e]) h01 rfl] at hsome
      cases hp : p e <;>
        simp only [hp, Bool.not_true, Bool.not_false, Bool.false_eq_true, if_false, if_true] <;>
        first
          | rfl
          | (rw [hsome, ReadWhile_loop_eq p _ _ (acc ++ [e]) h01 rfl]
             rfl)

theorem ReadWhileP_total {ε α : Type} (p : predicate α) (sr : SliceReader α) :
    ReadWhileP (fun v => (Except.ok (p v) : Except ε Bool)) sr =
      Ended.ofOutcome sr (ReadWhile p sr) :=
  ReadWhileP_loop_total p _ sr [] rfl

theorem ReadWhileInclP_loop_total {ε α : Type} (p : predicate α) :
    ∀ (n : Nat) (sr : SliceReader α) (acc : List α), (Size sr - sr.i).toNat = n →
      ReadWhileInclP.loop (fun v => (Except.ok (p v) : Except ε Bool)) sr acc =
        Ended.ofOutcome sr (ReadWhileIncl.loop p sr acc) := by
  intro n
  induction n with
  | zero =>
    intro sr acc hn
    rw [ReadWhileInclP.loop, ReadWhileIncl.loop, if_neg (by omega), if_neg (by omega)]
    rfl
  | succ n ih =>
    intro sr acc hn
    have hlt : sr.i < Size sr := by omega
    rw [ReadWhileInclP.loop, ReadWhileIncl.loop, if_pos hlt, if_pos hlt]
    cases he : index sr.s sr.i with
    | none => rfl
    | some e =>
      obtain ⟨h0, _⟩ := index_some_bounds _ _ _ he
      have h1 : (Size { sr with i := sr.i + 1 } -
          ({ sr with i := sr.i + 1 } : SliceReader α).i).toNat = n := by
        simp only [Size] at *
        omega
      have h01 : 0 ≤ ({ sr with i := sr.i + 1 } : SliceReader α).i := by
        show 0 ≤ sr.i + 1
        omega
      have hsome := ih { sr with i := sr.i + 1 } (acc ++ [e]) h1
      rw [ReadWhileIncl_loop_eq p _ _ (acc ++ [e]) h01 rfl] at hsome
      cases hp : p e <;>
        simp only [hp, Bool.not_true, Bool.not_false, Bool.false_eq_true, if_false, if_true] <;>
        first
          | rfl
          | (rw [hsome, ReadWhileIncl_loop_eq p _ _ (acc ++ [e]) h01 rfl]
             rfl)

theorem ReadWhileInclP_total {ε α : Type} (p : predicate α) (sr : SliceReader α) :
    ReadWhileInclP (fun v => (Except.ok (p v) : Except ε Bool)) sr =
      Ended.ofOutcome sr (ReadWhileIncl p sr) :=
  ReadWhileInclP_loop_total p _ sr [] rfl

theorem ReadUntilP_loop_total {ε α : Type} (p : predicate α) :
    ∀ (n : Nat) (sr : SliceReader α) (acc : List α), (Size sr - sr.i).toNat = n →
      ReadUntilP.loop (fun v => (Except.ok (p v) : Except ε Bool)) sr acc =
        Ended.ofOutcome sr (ReadUntil.loop p sr acc) := by
  intro n
  induction n with
  | zero =>
    intro sr acc hn
    rw [ReadUntilP.loop, ReadUntil.loop, if_neg (by omega), if_neg (by omega)]
    rfl
  | succ n ih =>
    intro sr acc hn
    have hlt : sr.i < Size sr := by omega
    rw [ReadUntilP.loop, ReadUntil.loop, if_pos hlt, if_pos hlt]
    cases he : index sr.s sr.i with
    | none => rfl
    | some e =>
      obtain ⟨h0, _⟩ := index_some_bounds _ _ _ he
      have h1 : (Size { sr with i := sr.i + 1 } -
          ({ sr with i := sr.i + 1 } : SliceReader α).i).toNat = n := by
        simp only [Size] at *
        omega
      have h01 : 0 ≤ ({ sr with i := sr.i + 1 } : SliceReader α).i := by
        show 0 ≤ sr.i + 1
        omega
      have hsome := ih { sr with i := sr.i + 1 } (acc ++ [e]) h1
      rw [ReadUntil_loop_eq_while p _ _ (acc ++ [e]) rfl,
          ReadWhile_loop_eq _ _ _ (acc ++ [e]) h01 rfl] at hsome
      cases hp : p e <;>
        simp only [hp, Bool.not_true, Bool.not_false, Bool.false_eq_true, if_false, if_true] <;>
        first
          | rfl
          | (rw [hsome, ReadUntil_loop_eq_while p _ _ (acc ++ [e]) rfl,
          ReadWhile_loop_eq _ _ _ (acc ++ [e]) h01 rfl]
             rfl)

theorem ReadUntilP_total {ε α : Type} (p : predicate α) (sr : SliceReader α) :
    ReadUntilP (fun v => (Except.ok (p v) : Except ε Bool)) sr =
      Ended.ofOutcome sr (ReadUntil p sr) :=
  ReadUntilP_loop_total p _ sr [] rfl

theorem ReadUntilInclP_loop_total {ε α : Type} (p : predicate α) :
    ∀ (n : Nat) (sr : SliceReader α) (acc : List α), (Size sr - sr.i).toNat = n →
      ReadUntilInclP.loop (fun v => (Except.ok (p v) : Except ε Bool)) sr acc =
        Ended.ofOutcome sr (ReadUntilIncl.loop p sr acc) := by
  intro n
  induction n with
  | zero =>
    intro sr acc hn
    rw [ReadUntilInclP.loop, ReadUntilIncl.loop, if_neg (by omega), if_neg (by omega)]
    rfl
  | succ n ih =>
    intro sr acc hn
    have hlt : sr.i < Size sr := by omega
    rw [ReadUntilInclP.loop, ReadUntilIncl.loop, if_pos hlt, if_pos hlt]
    cases he : index sr.s sr.i with
    | none => rfl
    | some e =>
      obtain ⟨h0, _⟩ := index_some_bounds _ _ _ he
      have h1 : (Size { sr with i := sr.i + 1 } -
          ({ sr with i := sr.i + 1 } : SliceReader α).i).toNat = n := by
        simp only [Size] at *
        omega
      have h01 : 0 ≤ ({ sr with i := sr.i + 1 } : SliceReader α).i := by
        show 0 ≤ sr.i + 1
        omega
      have hsome := ih { sr with i := sr.i + 1 } (acc ++ [e]) h1
      rw [ReadUntilIncl_loop_eq_while p _ _ (acc ++ [e]) rfl,
          ReadWhileIncl_loop_eq _ _ _ (acc ++ [e]) h01 rfl] at hsome
      cases hp : p e <;>
        simp only [hp, Bool.not_true, Bool.not_false, Bool.false_eq_true, if_false, if_true] <;>
        first
          | rfl
          | (rw [hsome, ReadUntilIncl_loop_eq_while p _ _ (acc ++ [e]) rfl,
          ReadWhileIncl_loop_eq _ _ _ (acc ++ [e]) h01 rfl]
             rfl)

theorem ReadUntilInclP_total {ε α : Type} (p : predicate α) (sr : SliceReader α) :
    ReadUntilInclP (fun v => (Except.ok (p v) : Except ε Bool)) sr =
      Ended.ofOutcome sr (ReadUntilIncl p sr) :=
  ReadUntilInclP_loop_total p _ sr [] rfl

/-! ## Inclusive against exclusive reads -/

theorem getElem?_length_takeWhile {α : Type} (p : α → Bool) (u : List α) :
    u[(u.takeWhile p).length]? = (u.dropWhile p).head? := by
  induction u with
  | nil => rfl
  | cons a t ih =>
    cases hp : p a with
    | false => simp [List.takeWhile_cons, List.dropWhile_cons, hp]
    | true => simp [List.takeWhile_cons, List.dropWhile_cons, hp, ih]

theorem InclVsExcl_ReadWhile {α : Type} (p : predicate α) (sr : SliceReader α) :
    InclVsExcl (ReadWhile p sr) (ReadWhileIncl p sr) := by
  rcases Int.lt_or_le sr.i 0 with hneg | h0
  · rw [ReadWhile_of_neg p sr hneg, ReadWhileIncl_of_neg p sr hneg]
    trivial
  · rw [ReadWhile_eq p sr h0, ReadWhileIncl_eq p sr h0]
    refine ⟨rfl, rfl, ?_, ?_⟩
    · intro herr
      have hall : ¬ (unread sr).all p = true := by
        intro hc
        simp only [hc, if_true] at herr
        exact absurd herr (by simp)
      have hdw : (unread sr).dropWhile p ≠ [] := by
        intro hc
        exact hall (List.all_eq_true.mpr (List.dropWhile_eq_nil_iff.mp hc))
      cases hd : (unread sr).dropWhile p with
      | nil => exact absurd hd hdw
      | cons x t =>
        refine ⟨x, ?_, by simp⟩
        show index sr.s (sr.i + (((unread sr).takeWhile p).length : Int)) = some x
        rw [index_add_nat sr h0, getElem?_length_takeWhile, hd]
        rfl
    · intro herr
      have hall : (unread sr).all p = true := by
        by_contra hc
        simp only [hc] at herr
        exact absurd herr (by simp)
      have hdw : (unread sr).dropWhile p = [] :=
        List.dropWhile_eq_nil_iff.mpr (List.all_eq_true.mp hall)
      simp [hdw]

/-! ## The claims -/

/-- C1. `Read` on a cursor with `0 ≤ position ≤ Size()`: if `position < Size()` it
returns the element at index `position` with a nil error and advances the position by
exactly 1; if `position ≥ Size()` it returns the nil element together with `EOS` and
leaves the cursor unchanged. -/
theorem Read_spec {α : Type} (sr : SliceReader α) (hv : Valid sr) :
    (sr.i < Size sr →
      ∃ e, index sr.s sr.i = some e ∧
        Read sr = some ((some e, none), { sr with i := sr.i + 1 })) ∧
    (sr.i ≥ Size sr → Read sr = some ((none, some Error.EOS), sr)) := by
  constructor
  · intro hlt
    obtain ⟨e, he, _⟩ := unread_eq_cons sr hv.1 hlt
    refine ⟨e, he, ?_⟩
    unfold Read
    rw [if_neg (by omega), he]
  · intro hge
    unfold Read
    rw [if_pos hge]

theorem Read_spec_witness :
    Valid (⟨mixedFour, 3⟩ : SliceReader Value) ∧
    (((⟨mixedFour, 3⟩ : SliceReader Value).i < Size (⟨mixedFour, 3⟩ : SliceReader Value) →
      ∃ e, index mixedFour 3 = some e ∧
        Read (⟨mixedFour, 3⟩ : SliceReader Value) = some ((some e, none), ⟨mixedFour, 3 + 1⟩)) ∧
    ((⟨mixedFour, 3⟩ : SliceReader Value).i ≥ Size (⟨mixedFour, 3⟩ : SliceReader Value) →
      Read (⟨mixedFour, 3⟩ : SliceReader Value) =
        some ((none, some Error.EOS), ⟨mixedFour, 3⟩))) :=
  ⟨by decide, Read_spec ⟨mixedFour, 3⟩ (by decide)⟩

/-- C2. `ReadWhile`, stop case: if the first unread element on which `p` is false lies
`k` places after the position, then `ReadWhile p` returns exactly the `k` unread
elements before it, in their order, with a nil error; `p` holds on every returned
element, so the element on which `p` is false is not in the result. -/
theorem ReadWhile_stop {α : Type} (p : predicate α) (sr : SliceReader α) (k : Nat)
    (h : FirstStopAt (fun v => !p v) sr k) :
    ∃ sr1, ReadWhile p sr = some (((unread sr).take k, none), sr1) ∧
      ((unread sr).take k).length = k ∧
      (∀ j : Nat, j < k → ((unread sr).take k)[j]? = index sr.s (sr.i + (j : Int))) ∧
      ∀ y ∈ (unread sr).take k, p y = true := by
  obtain ⟨h0, _, _, _, h4, h5, _⟩ := h.unread_split p (by simp)
  refine ⟨_, ReadWhile_of_stop p sr k h, ?_, ?_, ?_⟩
  · rw [List.length_take]; omega
  · intro j hj
    rw [index_add_nat sr h0 j, List.getElem?_take_of_lt hj]
  · intro y hy
    simpa using h5 y hy

theorem ReadWhile_stop_witness :
    FirstStopAt (fun v => !neFalse v) (NewSliceReader mixedFour) 2 ∧
    ∃ sr1, ReadWhile neFalse (NewSliceReader mixedFour) =
        some (((unread (NewSliceReader mixedFour)).take 2, none), sr1) ∧
      ((unread (NewSliceReader mixedFour)).take 2).length = 2 ∧
      (∀ j : Nat, j < 2 → ((unread (NewSliceReader mixedFour)).take 2)[j]? =
        index (NewSliceReader mixedFour).s ((NewSliceReader mixedFour).i + (j : Int))) ∧
      ∀ y ∈ (unread (NewSliceReader mixedFour)).take 2, neFalse y = true :=
  ⟨by decide, ReadWhile_stop neFalse (NewSliceReader mixedFour) 2 (by decide)⟩

/-- C3. `ReadUntil`, stop case: if the first unread element on which `p` is true lies
`k` places after the position, then `ReadUntil p` returns exactly the `k` unread
elements before it, in their order, with a nil error; `p` is false on every returned
element, so the element on which `p` is true is not in the result. -/
theorem ReadUntil_stop {α : Type} (p : predicate α) (sr : SliceReader α) (k : Nat)
    (h : FirstStopAt p sr k) :
    ∃ sr1, ReadUntil p sr = some (((unread sr).take k, none), sr1) ∧
      ((unread sr).take k).length = k ∧
      (∀ j : Nat, j < k → ((unread sr).take k)[j]? = index sr.s (sr.i + (j : Int))) ∧
      ∀ y ∈ (unread sr).take k, p y = false := by
  obtain ⟨h0, _, _, _, h4, h5, _⟩ := h.unread_split (fun v => !p v) (by simp)
  refine ⟨_, ReadUntil_of_stop p sr k h, ?_, ?_, h5⟩
  · rw [List.length_take]; omega
  · intro j hj
    rw [index_add_nat sr h0 j, List.getElem?_take_of_lt hj]

theorem ReadUntil_stop_witness :
    FirstStopAt eqFalse (NewSliceReader mixedFour) 2 ∧
    ∃ sr1, ReadUntil eqFalse (NewSliceReader mixedFour) =
        some (((unread (NewSliceReader mixedFour)).take 2, none), sr1) ∧
      ((unread (NewSliceReader mixedFour)).take 2).length = 2 ∧
      (∀ j : Nat, j < 2 → ((unread (NewSliceReader mixedFour)).take 2)[j]? =
        index (NewSliceReader mixedFour).s ((NewSliceReader mixedFour).i + (j : Int))) ∧
      ∀ y ∈ (unread (NewSliceReader mixedFour)).take 2, eqFalse y = false :=
  ⟨by decide, ReadUntil_stop eqFalse (NewSliceReader mixedFour) 2 (by decide)⟩

/-- C4. `ReadWhileIncl`, stop case: if the first unread element on which `p` is false
lies `k` places after the position, then `ReadWhileIncl p` returns exactly the first
`k + 1` unread elements in order, with a nil error; the last returned element is the
one on which `p` is false; and when that element is the last element of the slice the
result is the whole unread remainder, still with a nil error. -/
theorem ReadWhileIncl_stop {α : Type} (p : predicate α) (sr : SliceReader α) (k : Nat)
    (h : FirstStopAt (fun v => !p v) sr k) :
    ∃ sr1 x, ReadWhileIncl p sr = some (((unread sr).take (k + 1), none), sr1) ∧
      ((unread sr).take (k + 1)).length = k + 1 ∧
      (∀ j : Nat, j < k + 1 →
        ((unread sr).take (k + 1))[j]? = index sr.s (sr.i + (j : Int))) ∧
      index sr.s (sr.i + (k : Int)) = some x ∧ p x = false ∧
      ((unread sr).take (k + 1)).getLast? = some x ∧
      (sr.i + (k : Int) + 1 = Size sr → (unread sr).take (k + 1) = unread sr) := by
  obtain ⟨h0, _, _, _, _, _, x, hix, hux, hsx⟩ := h.unread_split p (by simp)
  obtain ⟨t1, t2, t3⟩ := take_succ_unread sr k x h0 hux
  refine ⟨_, x, ReadWhileIncl_of_stop p sr k h, t1, ?_, hix, by simpa using hsx, t2, t3⟩
  intro j hj
  rw [index_add_nat sr h0 j, List.getElem?_take_of_lt hj]

theorem ReadWhileIncl_stop_witness :
    FirstStopAt (fun v => !neFalse v) (⟨mixedFour, 1⟩ : SliceReader Value) 1 ∧
    ∃ sr1 x, ReadWhileIncl neFalse (⟨mixedFour, 1⟩ : SliceReader Value) =
        some (((unread (⟨mixedFour, 1⟩ : SliceReader Value)).take (1 + 1), none), sr1) ∧
      ((unread (⟨mixedFour, 1⟩ : SliceReader Value)).take (1 + 1)).length = 1 + 1 ∧
      (∀ j : Nat, j < 1 + 1 →
        ((unread (⟨mixedFour, 1⟩ : SliceReader Value)).take (1 + 1))[j]? =
          index mixedFour (1 + (j : Int))) ∧
      index mixedFour (1 + ((1 : Nat) : Int)) = some x ∧ neFalse x = false ∧
      ((unread (⟨mixedFour, 1⟩ : SliceReader Value)).take (1 + 1)).getLast? = some x ∧
      ((1 : Int) + ((1 : Nat) : Int) + 1 = Size (⟨mixedFour, 1⟩ : SliceReader Value) →
        (unread (⟨mixedFour, 1⟩ : SliceReader Value)).take (1 + 1) =
          unread (⟨mixedFour, 1⟩ : SliceReader Value)) :=
  ⟨by decide, ReadWhileIncl_stop neFalse ⟨mixedFour, 1⟩ 1 (by decide)⟩

/-- C5. `ReadUntilIncl`, stop case: if the first unread element on which `p` is true
lies `k` places after the position, then `ReadUntilIncl p` returns exactly the first
`k + 1` unread elements in order, with a nil error; the last returned element is the
one on which `p` is true; and when that element is the last element of the slice the
result is the whole unread remainder, still with a nil error. -/
theorem ReadUntilIncl_stop {α : Type} (p : predicate α) (sr : SliceReader α) (k : Nat)
    (h : FirstStopAt p sr k) :
    ∃ sr1 x, ReadUntilIncl p sr = some (((unread sr).take (k + 1), none), sr1) ∧
      ((unread sr).take (k + 1)).length = k + 1 ∧
      (∀ j : Nat, j < k + 1 →
        ((unread sr).take (k + 1))[j]? = index sr.s (sr.i + (j : Int))) ∧
      index sr.s (sr.i + (k : Int)) = some x ∧ p x = true ∧
      ((unread sr).take (k + 1)).getLast? = some x ∧
      (sr.i + (k : Int) + 1 = Size sr → (unread sr).take (k + 1) = unread sr) := by
  obtain ⟨h0, _, _, _, _, _, x, hix, hux, hsx⟩ := h.unread_split (fun v => !p v) (by simp)
  obtain ⟨t1, t2, t3⟩ := take_succ_unread sr k x h0 hux
  refine ⟨_, x, ReadUntilIncl_of_stop p sr k h, t1, ?_, hix, hsx, t2, t3⟩
  intro j hj
  rw [index_add_nat sr h0 j, List.getElem?_take_of_lt hj]

theorem ReadUntilIncl_stop_witness :
    FirstStopAt (fun v => v == Value.bool true) (NewSliceReader mixedFour) 3 ∧
    ∃ sr1 x, ReadUntilIncl (fun v => v == Value.bool true) (NewSliceReader mixedFour) =
        some (((unread (NewSliceReader mixedFour)).take (3 + 1), none), sr1) ∧
      ((unread (NewSliceReader mixedFour)).take (3 + 1)).length = 3 + 1 ∧
      (∀ j : Nat, j < 3 + 1 →
        ((unread (NewSliceReader mixedFour)).take (3 + 1))[j]? =
          index (NewSliceReader mixedFour).s ((NewSliceReader mixedFour).i + (j : Int))) ∧
      index (NewSliceReader mixedFour).s ((NewSliceReader mixedFour).i + ((3 : Nat) : Int)) =
        some x ∧ (x == Value.bool true) = true ∧
      ((unread (NewSliceReader mixedFour)).take (3 + 1)).getLast? = some x ∧
      ((NewSliceReader mixedFour).i + ((3 : Nat) : Int) + 1 = Size (NewSliceReader mixedFour) →
        (unread (NewSliceReader mixedFour)).take (3 + 1) = unread (NewSliceReader mixedFour)) :=
  ⟨by decide,
    ReadUntilIncl_stop (fun v => v == Value.bool true) (NewSliceReader mixedFour) 3 (by decide)⟩

/-- C6. Exhaustion case of the four batch reads, on a cursor with
`0 ≤ position ≤ Size()`: if `p` is true on every unread element, `ReadWhile p` and
`ReadWhileIncl p` return the full unread remainder in order together with `EOS` and
leave the position equal to `Size()`; if `q` is false on every unread element, so do
`ReadUntil q` and `ReadUntilIncl q`. -/
theorem batch_read_exhaustion {α : Type} (p q : predicate α) (sr : SliceReader α)
    (hv : Valid sr) (hp : ∀ x ∈ unread sr, p x = true) (hq : ∀ x ∈ unread sr, q x = false) :
    ReadWhile p sr = some ((unread sr, some Error.EOS), { sr with i := Size sr }) ∧
    ReadWhileIncl p sr = some ((unread sr, some Error.EOS), { sr with i := Size sr }) ∧
    ReadUntil q sr = some ((unread sr, some Error.EOS), { sr with i := Size sr }) ∧
    ReadUntilIncl q sr = some ((unread sr, some Error.EOS), { sr with i := Size sr }) :=
  ⟨ReadWhile_of_all p sr hv hp, ReadWhileIncl_of_all p sr hv hp,
    ReadUntil_of_none q sr hv hq, ReadUntilIncl_of_none q sr hv hq⟩

theorem batch_read_exhaustion_witness :
    Valid (⟨mixedFour, 3⟩ : SliceReader Value) ∧
    (∀ x ∈ unread (⟨mixedFour, 3⟩ : SliceReader Value), neFalse x = true) ∧
    (∀ x ∈ unread (⟨mixedFour, 3⟩ : SliceReader Value), eqFalse x = false) ∧
    (ReadWhile neFalse (⟨mixedFour, 3⟩ : SliceReader Value) =
        some ((unread ⟨mixedFour, 3⟩, some Error.EOS), ⟨mixedFour, Size ⟨mixedFour, 3⟩⟩) ∧
      ReadWhileIncl neFalse (⟨mixedFour, 3⟩ : SliceReader Value) =
        some ((unread ⟨mixedFour, 3⟩, some Error.EOS), ⟨mixedFour, Size ⟨mixedFour, 3⟩⟩) ∧
      ReadUntil eqFalse (⟨mixedFour, 3⟩ : SliceReader Value) =
        some ((unread ⟨mixedFour, 3⟩, some Error.EOS), ⟨mixedFour, Size ⟨mixedFour, 3⟩⟩) ∧
      ReadUntilIncl eqFalse (⟨mixedFour, 3⟩ : SliceReader Value) =
        some ((unread ⟨mixedFour, 3⟩, some Error.EOS), ⟨mixedFour, Size ⟨mixedFour, 3⟩⟩)) :=
  ⟨by decide, by decide, by decide,
    batch_read_exhaustion neFalse eqFalse ⟨mixedFour, 3⟩ (by decide) (by decide) (by decide)⟩

/-- C7, the code at the failing input.  On `mixedFour` from position 0 the stop
condition of `ReadWhileIncl (v != false)` and of `ReadUntilIncl (v == false)` first fires
at offset `k = 2`.  Both calls return the three elements up to and including the
triggering one with a nil error, but leave the position at `2 = start + k`, not at
`3 = start + k + 1`: the next `Read` delivers the triggering element `false` a second
time, where the claim has it return the element after it. -/
theorem inclusive_stop_position_at_mixedFour :
    FirstStopAt (fun v => !neFalse v) (NewSliceReader mixedFour) 2 ∧
    ReadWhileIncl neFalse (NewSliceReader mixedFour) =
      some (([Value.str "value1", Value.str "value2", Value.bool false], none),
        ⟨mixedFour, 2⟩) ∧
    FirstStopAt eqFalse (NewSliceReader mixedFour) 2 ∧
    ReadUntilIncl eqFalse (NewSliceReader mixedFour) =
      some (([Value.str "value1", Value.str "value2", Value.bool false], none),
        ⟨mixedFour, 2⟩) ∧
    Read (⟨mixedFour, 2⟩ : SliceReader Value) =
      some ((some (Value.bool false), none), ⟨mixedFour, 3⟩) := by
  refine ⟨by decide, ?_, by decide, ?_, by decide⟩
  · rw [ReadWhileIncl_of_stop neFalse (NewSliceReader mixedFour) 2 (by decide)]
    decide
  · rw [ReadUntilIncl_of_stop eqFalse (NewSliceReader mixedFour) 2 (by decide)]
    decide

/-- C8. Position after an exclusive stop: if the stop condition of `ReadWhile p`
(`p` false) first fires on the unread element at offset `k` from the position `start`,
the call returns with a nil error and leaves the position at `start + k`, and an
immediately following `Read` returns that triggering element with a nil error; likewise
for `ReadUntil q` when `q` is first true at offset `k`. -/
theorem exclusive_stop_position {α : Type} (p q : predicate α) (sr : SliceReader α)
    (k : Nat) (hp : FirstStopAt (fun v => !p v) sr k) (hq : FirstStopAt q sr k) :
    (∃ r x, ReadWhile p sr = some ((r, none), { sr with i := sr.i + (k : Int) }) ∧
      index sr.s (sr.i + (k : Int)) = some x ∧ p x = false ∧
      Read { sr with i := sr.i + (k : Int) } =
        some ((some x, none), { sr with i := sr.i + (k : Int) + 1 })) ∧
    (∃ r x, ReadUntil q sr = some ((r, none), { sr with i := sr.i + (k : Int) }) ∧
      index sr.s (sr.i + (k : Int)) = some x ∧ q x = true ∧
      Read { sr with i := sr.i + (k : Int) } =
        some ((some x, none), { sr with i := sr.i + (k : Int) + 1 })) := by
  constructor
  · obtain ⟨_, _, _, _, _, _, x, hix, _, hsx⟩ := hp.unread_split p (by simp)
    exact ⟨_, x, ReadWhile_of_stop p sr k hp, hix, by simpa using hsx,
      Read_at_offset sr k x hix⟩
  · obtain ⟨_, _, _, _, _, _, x, hix, _, hsx⟩ := hq.unread_split (fun v => !q v) (by simp)
    exact ⟨_, x, ReadUntil_of_stop q sr k hq, hix, hsx, Read_at_offset sr k x hix⟩

theorem exclusive_stop_position_witness :
    FirstStopAt (fun v => !neFalse v) (NewSliceReader mixedFour) 2 ∧
    FirstStopAt eqFalse (NewSliceReader mixedFour) 2 ∧
    ((∃ r x, ReadWhile neFalse (NewSliceReader mixedFour) =
          some ((r, none), ⟨mixedFour, (NewSliceReader mixedFour).i + ((2 : Nat) : Int)⟩) ∧
        index mixedFour ((NewSliceReader mixedFour).i + ((2 : Nat) : Int)) = some x ∧
        neFalse x = false ∧
        Read (⟨mixedFour, (NewSliceReader mixedFour).i + ((2 : Nat) : Int)⟩ : SliceReader Value) =
          some ((some x, none),
            ⟨mixedFour, (NewSliceReader mixedFour).i + ((2 : Nat) : Int) + 1⟩)) ∧
     (∃ r x, ReadUntil eqFalse (NewSliceReader mixedFour) =
          some ((r, none), ⟨mixedFour, (NewSliceReader mixedFour).i + ((2 : Nat) : Int)⟩) ∧
        index mixedFour ((NewSliceReader mixedFour).i + ((2 : Nat) : Int)) = some x ∧
        eqFalse x = true ∧
        Read (⟨mixedFour, (NewSliceReader mixedFour).i + ((2 : Nat) : Int)⟩ : SliceReader Value) =
          some ((some x, none),
            ⟨mixedFour, (NewSliceReader mixedFour).i + ((2 : Nat) : Int) + 1⟩))) :=
  ⟨by decide, by decide,
    exclusive_stop_position neFalse eqFalse (NewSliceReader mixedFour) 2 (by decide) (by decide)⟩

/-- The scenario of the specification: on `["value1","value2",false,true]` from
position 0, `ReadWhile (v != false)` returns `["value1","value2"]` with a nil error and
the next `Read` yields `false`. -/
theorem ReadWhile_then_Read_mixedFour :
    ReadWhile neFalse (NewSliceReader mixedFour) =
      some (([Value.str "value1", Value.str "value2"], none), ⟨mixedFour, 2⟩) ∧
    Read (⟨mixedFour, 2⟩ : SliceReader Value) =
      some ((some (Value.bool false), none), ⟨mixedFour, 3⟩) := by
  refine ⟨?_, by decide⟩
  rw [ReadWhile_of_stop neFalse (NewSliceReader mixedFour) 2 (by decide)]
  decide

/-- C9. Draining by single reads: for every slice `S`, `Read` called `len(S)` times in
succession on `NewSliceReader(S)` returns `S[0], ..., S[len(S)-1]` in that order, each
with a nil error, and ends at position `len(S)`; from there `Read`, called any number
`m` of times, returns the nil element with `EOS` every time and leaves the cursor
unchanged. -/
theorem Read_drains {α : Type} (S : List α) :
    readN S.length (NewSliceReader S) =
      some (S.map (fun x => (some x, none)), ⟨S, (S.length : Int)⟩) ∧
    Read (⟨S, (S.length : Int)⟩ : SliceReader α) =
      some ((none, some Error.EOS), ⟨S, (S.length : Int)⟩) ∧
    ∀ m : Nat, readN m (⟨S, (S.length : Int)⟩ : SliceReader α) =
      some (List.replicate m (none, some Error.EOS), ⟨S, (S.length : Int)⟩) := by
  refine ⟨?_, ?_, ?_⟩
  · have hv : Valid (NewSliceReader S) := by
      refine ⟨?_, ?_⟩
      · show (0 : Int) ≤ 0
        omega
      · show (0 : Int) ≤ (S.length : Int)
        omega
    have hu : unread (NewSliceReader S) = S := by
      simp [unread, NewSliceReader]
    have := readN_unread S.length (NewSliceReader S) hv (by rw [hu])
    rw [hu] at this
    exact this
  · exact Read_of_ge _ (by show (S.length : Int) ≤ (S.length : Int); omega)
  · exact readN_exhausted _ (by show (S.length : Int) ≤ (S.length : Int); omega)

/-- C10, the code at the failing input.  On `mixedFour` from position 0 (a cursor with
`0 ≤ position ≤ Size()`), `Len()` is 4; `ReadWhileIncl (v != false)` and
`ReadUntilIncl (v == false)` each return 3 elements, and `Len()` after the call is 2,
not `4 - 3 = 1`: the position has increased by 2 for the 3 elements returned. -/
theorem Len_accounting_at_mixedFour :
    Valid (NewSliceReader mixedFour) ∧ Len (NewSliceReader mixedFour) = 4 ∧
    (∃ r sr1, ReadWhileIncl neFalse (NewSliceReader mixedFour) = some ((r, none), sr1) ∧
      r.length = 3 ∧ Len sr1 = 2 ∧ sr1.i = (NewSliceReader mixedFour).i + 2) ∧
    (∃ r sr1, ReadUntilIncl eqFalse (NewSliceReader mixedFour) = some ((r, none), sr1) ∧
      r.length = 3 ∧ Len sr1 = 2 ∧ sr1.i = (NewSliceReader mixedFour).i + 2) := by
  refine ⟨by decide, by decide, ?_, ?_⟩
  · exact ⟨_, _, ReadWhileIncl_of_stop neFalse (NewSliceReader mixedFour) 2 (by decide),
      by decide, by decide, by decide⟩
  · exact ⟨_, _, ReadUntilIncl_of_stop eqFalse (NewSliceReader mixedFour) 2 (by decide),
      by decide, by decide, by decide⟩

/-- C11. The underlying slice is never modified and `Size()` is fixed: for every slice
`S`, position `i` and predicate `p`, `Size()` of the cursor is `len(S)` whatever `i` is;
`Read` and the four batch reads return whenever `0 ≤ i` (they panic on a negative
position) and the receiver after the call holds the same slice `S` and has
`Size() = len(S)`.  `Len` and `Size` only read the receiver: in the embedding they are
functions of the cursor that return no new cursor. -/
theorem slice_never_modified {α : Type} (S : List α) (i : Int) (p : predicate α) :
    Size (⟨S, i⟩ : SliceReader α) = (S.length : Int) ∧
    Size (NewSliceReader S) = (S.length : Int) ∧
    (Read (⟨S, i⟩ : SliceReader α)).map (fun o => (o.2.s, Size o.2)) =
      (if 0 ≤ i then some (S, (S.length : Int)) else none) ∧
    (ReadWhile p (⟨S, i⟩ : SliceReader α)).map (fun o => (o.2.s, Size o.2)) =
      (if 0 ≤ i then some (S, (S.length : Int)) else none) ∧
    (ReadUntil p (⟨S, i⟩ : SliceReader α)).map (fun o => (o.2.s, Size o.2)) =
      (if 0 ≤ i then some (S, (S.length : Int)) else none) ∧
    (ReadWhileIncl p (⟨S, i⟩ : SliceReader α)).map (fun o => (o.2.s, Size o.2)) =
      (if 0 ≤ i then some (S, (S.length : Int)) else none) ∧
    (ReadUntilIncl p (⟨S, i⟩ : SliceReader α)).map (fun o => (o.2.s, Size o.2)) =
      (if 0 ≤ i then some (S, (S.length : Int)) else none) := by
  have hw : ∀ q : predicate α,
      (ReadWhile q (⟨S, i⟩ : SliceReader α)).map (fun o => (o.2.s, Size o.2)) =
        (if 0 ≤ i then some (S, (S.length : Int)) else none) ∧
      (ReadWhileIncl q (⟨S, i⟩ : SliceReader α)).map (fun o => (o.2.s, Size o.2)) =
        (if 0 ≤ i then some (S, (S.length : Int)) else none) := by
    intro q
    rcases Int.lt_or_le i 0 with hneg | h0
    · rw [ReadWhile_of_neg q ⟨S, i⟩ hneg, ReadWhileIncl_of_neg q ⟨S, i⟩ hneg,
        if_neg (by omega)]
      exact ⟨rfl, rfl⟩
    · rw [ReadWhile_eq q ⟨S, i⟩ h0, ReadWhileIncl_eq q ⟨S, i⟩ h0, if_pos h0]
      exact ⟨rfl, rfl⟩
  refine ⟨rfl, rfl, ?_, (hw p).1, ?_, (hw p).2, ?_⟩
  · rcases Int.lt_or_le i 0 with hneg | h0
    · rw [Read_of_neg ⟨S, i⟩ hneg, if_neg (by omega)]
      rfl
    · have h := receiver_after_Read (⟨S, i⟩ : SliceReader α) h0
      rw [if_pos h0]
      cases hr : Read (⟨S, i⟩ : SliceReader α) with
      | none => rw [hr] at h; exact absurd h (by simp)
      | some o =>
        rw [hr] at h
        simp only [Option.map_some', Option.some.injEq] at h
        simp only [Option.map_some', h]
        rfl
  · rw [ReadUntil_eq_ReadWhile]
    exact (hw _).1
  · rw [ReadUntilIncl_eq_ReadWhileIncl]
    exact (hw _).2

/-- C12. Terminal state: on a cursor with `position == Size()` (the cursor over the
empty slice included) `Read` returns the nil element with `EOS`, and each of
`ReadWhile`, `ReadUntil`, `ReadWhileIncl`, `ReadUntilIncl`, with any predicate, returns
an empty result with `EOS`; all five leave the cursor unchanged, and `Read` called any
number `m` of times returns `EOS` every time. -/
theorem terminal_state {α : Type} (p : predicate α) (sr : SliceReader α)
    (h : sr.i = Size sr) :
    Read sr = some ((none, some Error.EOS), sr) ∧
    ReadWhile p sr = some (([], some Error.EOS), sr) ∧
    ReadUntil p sr = some (([], some Error.EOS), sr) ∧
    ReadWhileIncl p sr = some (([], some Error.EOS), sr) ∧
    ReadUntilIncl p sr = some (([], some Error.EOS), sr) ∧
    ∀ m : Nat, readN m sr = some (List.replicate m (none, some Error.EOS), sr) := by
  have hge : Size sr ≤ sr.i := by omega
  have hnlt : ¬ (sr.i < Size sr) := by omega
  refine ⟨Read_of_ge sr hge, ?_, ?_, ?_, ?_, readN_exhausted sr hge⟩
  · rw [ReadWhile, ReadWhile.loop, if_neg hnlt]
  · rw [ReadUntil, ReadUntil.loop, if_neg hnlt]
  · rw [ReadWhileIncl, ReadWhileIncl.loop, if_neg hnlt]
  · rw [ReadUntilIncl, ReadUntilIncl.loop, if_neg hnlt]

theorem terminal_state_witness :
    (NewSliceReader ([] : List Value)).i = Size (NewSliceReader ([] : List Value)) ∧
    (Read (NewSliceReader ([] : List Value)) =
        some ((none, some Error.EOS), NewSliceReader []) ∧
      ReadWhile neFalse (NewSliceReader ([] : List Value)) =
        some (([], some Error.EOS), NewSliceReader []) ∧
      ReadUntil neFalse (NewSliceReader ([] : List Value)) =
        some (([], some Error.EOS), NewSliceReader []) ∧
      ReadWhileIncl neFalse (NewSliceReader ([] : List Value)) =
        some (([], some Error.EOS), NewSliceReader []) ∧
      ReadUntilIncl neFalse (NewSliceReader ([] : List Value)) =
        some (([], some Error.EOS), NewSliceReader []) ∧
      ∀ m : Nat, readN m (NewSliceReader ([] : List Value)) =
        some (List.replicate m (none, some Error.EOS), NewSliceReader [])) :=
  ⟨by decide, terminal_state neFalse (NewSliceReader []) (by decide)⟩

/-- C13 as stated fails at the end of a non-empty slice.  The cursor over `mixedFour`
at position 4 is a cursor over a non-empty slice with `0 ≤ position ≤ Size()`, the stop
condition of `ReadWhile (v != false)` fires on no unread element (there is none), and
the call returns the empty result with `EOS`: no non-empty result is returned. -/
theorem never_firing_at_end_of_mixedFour :
    (⟨mixedFour, 4⟩ : SliceReader Value).s ≠ [] ∧
    Valid (⟨mixedFour, 4⟩ : SliceReader Value) ∧
    (∀ x ∈ unread (⟨mixedFour, 4⟩ : SliceReader Value), neFalse x = true) ∧
    ReadWhile neFalse (⟨mixedFour, 4⟩ : SliceReader Value) =
      some (([], some Error.EOS), ⟨mixedFour, 4⟩) ∧
    ¬ ∃ r sr1, ReadWhile neFalse (⟨mixedFour, 4⟩ : SliceReader Value) =
      some ((r, some Error.EOS), sr1) ∧ r ≠ [] := by
  have hr : ReadWhile neFalse (⟨mixedFour, 4⟩ : SliceReader Value) =
      some (([], some Error.EOS), ⟨mixedFour, 4⟩) := by
    rw [ReadWhile, ReadWhile.loop, if_neg (by decide)]
  refine ⟨by decide, by decide, by decide, hr, ?_⟩
  rintro ⟨r, sr1, h, hne⟩
  rw [hr] at h
  simp only [Option.some.injEq, Prod.mk.injEq] at h
  exact hne h.1.1.symm

/-- C13, amended.  For every cursor with `0 ≤ position ≤ Size()`: if `p` is true on
every unread element, `ReadWhile p` and `ReadWhileIncl p` return the unread remainder
paired with `EOS` and `Len()` is 0 afterwards; if `q` is false on every unread element,
so do `ReadUntil q` and `ReadUntilIncl q`.  The result is non-empty exactly when at
least one element is unread, that is when `position < Size()`. -/
theorem never_firing_unread {α : Type} (p q : predicate α) (sr : SliceReader α)
    (hv : Valid sr) (hp : ∀ x ∈ unread sr, p x = true) (hq : ∀ x ∈ unread sr, q x = false) :
    (unread sr ≠ [] ↔ sr.i < Size sr) ∧
    ∃ sr1, Len sr1 = 0 ∧
      ReadWhile p sr = some ((unread sr, some Error.EOS), sr1) ∧
      ReadWhileIncl p sr = some ((unread sr, some Error.EOS), sr1) ∧
      ReadUntil q sr = some ((unread sr, some Error.EOS), sr1) ∧
      ReadUntilIncl q sr = some ((unread sr, some Error.EOS), sr1) := by
  constructor
  · have hlen := unread_length sr hv
    unfold Len at hlen
    constructor
    · intro hne
      have : 0 < (unread sr).length := List.length_pos.mpr hne
      omega
    · intro hlt hnil
      rw [hnil] at hlen
      simp at hlen
      omega
  · refine ⟨{ sr with i := Size sr }, ?_, ReadWhile_of_all p sr hv hp,
      ReadWhileIncl_of_all p sr hv hp, ReadUntil_of_none q sr hv hq,
      ReadUntilIncl_of_none q sr hv hq⟩
    simp [Len, Size]

theorem never_firing_unread_witness :
    Valid (⟨mixedFour, 3⟩ : SliceReader Value) ∧
    (∀ x ∈ unread (⟨mixedFour, 3⟩ : SliceReader Value), neFalse x = true) ∧
    (∀ x ∈ unread (⟨mixedFour, 3⟩ : SliceReader Value), eqFalse x = false) ∧
    ((unread (⟨mixedFour, 3⟩ : SliceReader Value) ≠ [] ↔
        (⟨mixedFour, 3⟩ : SliceReader Value).i < Size (⟨mixedFour, 3⟩ : SliceReader Value)) ∧
      ∃ sr1, Len sr1 = 0 ∧
        ReadWhile neFalse (⟨mixedFour, 3⟩ : SliceReader Value) =
          some ((unread ⟨mixedFour, 3⟩, some Error.EOS), sr1) ∧
        ReadWhileIncl neFalse (⟨mixedFour, 3⟩ : SliceReader Value) =
          some ((unread ⟨mixedFour, 3⟩, some Error.EOS), sr1) ∧
        ReadUntil eqFalse (⟨mixedFour, 3⟩ : SliceReader Value) =
          some ((unread ⟨mixedFour, 3⟩, some Error.EOS), sr1) ∧
        ReadUntilIncl eqFalse (⟨mixedFour, 3⟩ : SliceReader Value) =
          some ((unread ⟨mixedFour, 3⟩, some Error.EOS), sr1)) :=
  ⟨by decide, by decide, by decide,
    never_firing_unread neFalse eqFalse ⟨mixedFour, 3⟩ (by decide) (by decide) (by decide)⟩

/-- C14. Construction: for every slice `S`, the empty one included, `NewSliceReader(S)`
is a cursor whose elements are exactly `S` and whose position is 0, so that
`Len() == Size() == len(S)`; all of `S` is unread. -/
theorem NewSliceReader_spec {α : Type} (S : List α) :
    (NewSliceReader S).s = S ∧ (NewSliceReader S).i = 0 ∧
    Len (NewSliceReader S) = (S.length : Int) ∧
    Size (NewSliceReader S) = (S.length : Int) ∧
    Len (NewSliceReader S) = Size (NewSliceReader S) ∧
    unread (NewSliceReader S) = S := by
  refine ⟨rfl, rfl, ?_, rfl, ?_, ?_⟩
  · simp [Len, Size, NewSliceReader]
  · simp [Len, NewSliceReader]
  · simp [unread, NewSliceReader]

/-- C15. `Len` formula: on a cursor with `0 ≤ position ≤ Size()`, `Len()` is
`Size() - position`, it is the number of unread elements, and it lies between 0 and
`Size()`.  `Len` only reads the receiver: it is a function of the cursor that returns
no new cursor, so calling it any number of times gives the same value. -/
theorem Len_formula {α : Type} (sr : SliceReader α) (hv : Valid sr) :
    Len sr = Size sr - sr.i ∧ Len sr = ((unread sr).length : Int) ∧
    0 ≤ Len sr ∧ Len sr ≤ Size sr := by
  have hlen := unread_length sr hv
  obtain ⟨h0, h1⟩ := hv
  refine ⟨rfl, hlen.symm, ?_, ?_⟩
  · unfold Len
    omega
  · unfold Len
    omega

theorem Len_formula_witness :
    Valid (⟨mixedFour, 3⟩ : SliceReader Value) ∧
    (Len (⟨mixedFour, 3⟩ : SliceReader Value) =
        Size (⟨mixedFour, 3⟩ : SliceReader Value) - (⟨mixedFour, 3⟩ : SliceReader Value).i ∧
      Len (⟨mixedFour, 3⟩ : SliceReader Value) =
        ((unread (⟨mixedFour, 3⟩ : SliceReader Value)).length : Int) ∧
      0 ≤ Len (⟨mixedFour, 3⟩ : SliceReader Value) ∧
      Len (⟨mixedFour, 3⟩ : SliceReader Value) ≤ Size (⟨mixedFour, 3⟩ : SliceReader Value)) :=
  ⟨by decide, Len_formula ⟨mixedFour, 3⟩ (by decide)⟩

/-- C16. Position invariant: `0 ≤ position ≤ Size()` holds for `NewSliceReader(S)`;
every call (`Len`, `Size`, `Read`, `ReadWhile`, `ReadUntil`, `ReadWhileIncl`,
`ReadUntilIncl`, with any predicate) on a cursor over `S` that satisfies it returns and
leaves a cursor that satisfies it, with a position at least as large; and along every
sequence of calls from `NewSliceReader(S)` every cursor reached satisfies the invariant
and the positions are non-decreasing from one call to the next. -/
theorem position_invariant {α : Type} (S : List α) :
    Valid (NewSliceReader S) ∧
    (∀ (i : Int) (c : Call α), Valid (⟨S, i⟩ : SliceReader α) →
      ∃ sr1, c.receiverAfter ⟨S, i⟩ = some sr1 ∧ Valid sr1 ∧ i ≤ sr1.i) ∧
    (∀ calls : List (Call α),
      ∃ srs, runCalls calls (NewSliceReader S) = some srs ∧ (∀ x ∈ srs, Valid x) ∧
        List.Chain (fun a b => a.i ≤ b.i) (NewSliceReader S) srs) := by
  have hv : Valid (NewSliceReader S) := by
    refine ⟨?_, ?_⟩
    · show (0 : Int) ≤ 0
      omega
    · show (0 : Int) ≤ (S.length : Int)
      omega
  refine ⟨hv, ?_, ?_⟩
  · intro i c hvi
    obtain ⟨sr1, hc, _, hv1, hle⟩ := receiverAfter_valid c ⟨S, i⟩ hvi
    exact ⟨sr1, hc, hv1, hle⟩
  · intro calls
    obtain ⟨srs, hrun, hall, hchain⟩ := runCalls_valid calls (NewSliceReader S) hv
    exact ⟨srs, hrun, fun x hx => (hall x hx).1, hchain⟩

/-- C17. Predicate failure: with the predicate modelled as a function that may fail,
if it fails with `e` on the unread element at offset `j` from the position `start`,
having not fired the stop condition on the `j` elements before it (`p` returned true on
them for `ReadWhile` and `ReadWhileIncl`, `q` returned false on them for `ReadUntil` and
`ReadUntilIncl`), then the read fails with that same `e`, not wrapped, and the cursor is
left with the same slice at position `start + j`, where it was just before the failing
element was evaluated. -/
theorem predicate_failure_propagates {ε α : Type} (p q : failingPredicate ε α)
    (sr : SliceReader α) (j : Nat) (e : ε)
    (hp : FailsAt p true sr j e) (hq : FailsAt q false sr j e) :
    ReadWhileP p sr =
      Ended.panicked (Panic.predicate e) { sr with i := sr.i + (j : Int) } ∧
    ReadWhileInclP p sr =
      Ended.panicked (Panic.predicate e) { sr with i := sr.i + (j : Int) } ∧
    ReadUntilP q sr =
      Ended.panicked (Panic.predicate e) { sr with i := sr.i + (j : Int) } ∧
    ReadUntilInclP q sr =
      Ended.panicked (Panic.predicate e) { sr with i := sr.i + (j : Int) } :=
  ⟨ReadWhileP_loop_fails p e j sr [] hp, ReadWhileInclP_loop_fails p e j sr [] hp,
    ReadUntilP_loop_fails q e j sr [] hq, ReadUntilInclP_loop_fails q e j sr [] hq⟩

theorem predicate_failure_propagates_witness :
    FailsAt (stringsOnly true) true (NewSliceReader mixedFour) 2
      "interface conversion: interface is bool, not string" ∧
    FailsAt (stringsOnly false) false (NewSliceReader mixedFour) 2
      "interface conversion: interface is bool, not string" ∧
    (ReadWhileP (stringsOnly true) (NewSliceReader mixedFour) =
        Ended.panicked
          (Panic.predicate "interface conversion: interface is bool, not string")
          ⟨mixedFour, (NewSliceReader mixedFour).i + ((2 : Nat) : Int)⟩ ∧
      ReadWhileInclP (stringsOnly true) (NewSliceReader mixedFour) =
        Ended.panicked
          (Panic.predicate "interface conversion: interface is bool, not string")
          ⟨mixedFour, (NewSliceReader mixedFour).i + ((2 : Nat) : Int)⟩ ∧
      ReadUntilP (stringsOnly false) (NewSliceReader mixedFour) =
        Ended.panicked
          (Panic.predicate "interface conversion: interface is bool, not string")
          ⟨mixedFour, (NewSliceReader mixedFour).i + ((2 : Nat) : Int)⟩ ∧
      ReadUntilInclP (stringsOnly false) (NewSliceReader mixedFour) =
        Ended.panicked
          (Panic.predicate "interface conversion: interface is bool, not string")
          ⟨mixedFour, (NewSliceReader mixedFour).i + ((2 : Nat) : Int)⟩) :=
  have hp : FailsAt (stringsOnly true) true (NewSliceReader mixedFour) 2
      "interface conversion: interface is bool, not string" :=
    ⟨rfl, fun m hm => by interval_cases m <;> rfl⟩
  have hq : FailsAt (stringsOnly false) false (NewSliceReader mixedFour) 2
      "interface conversion: interface is bool, not string" :=
    ⟨rfl, fun m hm => by interval_cases m <;> rfl⟩
  ⟨hp, hq,
    predicate_failure_propagates (stringsOnly true) (stringsOnly false)
      (NewSliceReader mixedFour) 2 _ hp hq⟩

/-- C18. Until is While with the predicate negated: for every cursor and predicate `p`,
`ReadUntil p` and `ReadWhile (not p)` have the same outcome (the same result, the same
error and the same cursor after the call, or both panic), and likewise `ReadUntilIncl p`
and `ReadWhileIncl (not p)`. -/
theorem Until_is_While_negated {α : Type} (p : predicate α) (sr : SliceReader α) :
    ReadUntil p sr = ReadWhile (fun v => !p v) sr ∧
    ReadUntilIncl p sr = ReadWhileIncl (fun v => !p v) sr :=
  ⟨ReadUntil_eq_ReadWhile p sr, ReadUntilIncl_eq_ReadWhileIncl p sr⟩

/-- C19. Inclusive versus exclusive from the same start: for every cursor and predicate
`p`, `ReadWhileIncl p` and `ReadWhile p` return the same error and leave the same
cursor; with a nil error the result of `ReadWhileIncl p` is the result of `ReadWhile p`
followed by the single element now at the position, and with `EOS` the two results are
equal.  The same holds between `ReadUntilIncl p` and `ReadUntil p`.  Both calls of a pair
return whenever the position is not negative. -/
theorem inclusive_versus_exclusive {α : Type} (p : predicate α) (sr : SliceReader α) :
    InclVsExcl (ReadWhile p sr) (ReadWhileIncl p sr) ∧
    InclVsExcl (ReadUntil p sr) (ReadUntilIncl p sr) ∧
    ((ReadWhile p sr).isSome = true ↔ 0 ≤ sr.i) ∧
    ((ReadUntil p sr).isSome = true ↔ 0 ≤ sr.i) := by
  have hsome : ∀ q : predicate α, ((ReadWhile q sr).isSome = true ↔ 0 ≤ sr.i) := by
    intro q
    rcases Int.lt_or_le sr.i 0 with hneg | h0
    · rw [ReadWhile_of_neg q sr hneg]
      constructor
      · intro h
        exact absurd h (by simp)
      · intro h
        omega
    · rw [ReadWhile_eq q sr h0]
      exact ⟨fun _ => h0, fun _ => rfl⟩
  refine ⟨InclVsExcl_ReadWhile p sr, ?_, hsome p, ?_⟩
  · rw [ReadUntil_eq_ReadWhile, ReadUntilIncl_eq_ReadWhileIncl]
    exact InclVsExcl_ReadWhile _ sr
  · rw [ReadUntil_eq_ReadWhile]
    exact hsome _

/-- C20. The exclusive batch reads partition the unread elements: on a cursor with
`0 ≤ position ≤ Size()`, for every predicate `p`, `ReadWhile p` returns, and its result
followed by the elements still unread after the call is the list of the elements unread
before the call; the same holds for `ReadUntil p`.  No element is skipped or delivered
twice. -/
theorem exclusive_reads_partition {α : Type} (p : predicate α) (sr : SliceReader α)
    (hv : Valid sr) :
    (∃ r err sr1, ReadWhile p sr = some ((r, err), sr1) ∧ r ++ unread sr1 = unread sr) ∧
    (∃ r err sr1, ReadUntil p sr = some ((r, err), sr1) ∧ r ++ unread sr1 = unread sr) := by
  have hw : ∀ q : predicate α,
      ∃ r err sr1, ReadWhile q sr = some ((r, err), sr1) ∧ r ++ unread sr1 = unread sr := by
    intro q
    refine ⟨_, _, _, ReadWhile_eq q sr hv.1, ?_⟩
    rw [unread_advance sr hv.1]
    exact takeWhile_append_drop_length q (unread sr)
  refine ⟨hw p, ?_⟩
  rw [ReadUntil_eq_ReadWhile]
  exact hw _

theorem exclusive_reads_partition_witness :
    Valid (⟨mixedFour, 1⟩ : SliceReader Value) ∧
    ((∃ r err sr1, ReadWhile neFalse (⟨mixedFour, 1⟩ : SliceReader Value) =
          some ((r, err), sr1) ∧
        r ++ unread sr1 = unread (⟨mixedFour, 1⟩ : SliceReader Value)) ∧
     (∃ r err sr1, ReadUntil neFalse (⟨mixedFour, 1⟩ : SliceReader Value) =
          some ((r, err), sr1) ∧
        r ++ unread sr1 = unread (⟨mixedFour, 1⟩ : SliceReader Value))) :=
  ⟨by decide, exclusive_reads_partition neFalse ⟨mixedFour, 1⟩ (by decide)⟩

end slicereader
